import Mathlib

/-!
Verification of the geometry extraction and topological line-merging engine of
the CAD-to-GIS conversion service (src/services/conversion_service.py).

Coordinates are modelled exactly as rationals: Python floating point
arithmetic is idealized as exact arithmetic on ℚ.  Every definition below is a
shallow embedding of the Python function named in its doc comment; geometry
values (shapely Point / LineString / Polygon) are represented by their
coordinate sequences, which is all the studied code ever constructs or
inspects.
-/

namespace CadGis

/-- A 2D coordinate pair, as handed to the geometry library. -/
abbrev Pt := ℚ × ℚ

/-- A 3D coordinate triple as produced by the entity flattener. -/
abbrev Pt3 := ℚ × ℚ × ℚ

/-- Python's built-in round: round half to even, on an exact rational. -/
def pyround (x : ℚ) : ℤ :=
  if x - ⌊x⌋ < 1/2 then ⌊x⌋
  else if 1/2 < x - ⌊x⌋ then ⌊x⌋ + 1
  else if Even ⌊x⌋ then ⌊x⌋ else ⌊x⌋ + 1

/-- Coordinate quantizer `q(x) = round(x / tol) * tol if tol > 0 else x`
(conversion_service.py, line 159 in `_grid_snap_lines` and line 216 in
`_merge_lines_graph`). -/
def quant (tol x : ℚ) : ℚ :=
  if 0 < tol then (pyround (x / tol) : ℚ) * tol else x

/-- Quantize both axes of a coordinate pair, producing a node key. -/
def qpt (tol : ℚ) (p : Pt) : Pt := (quant tol p.1, quant tol p.2)

/-- Geometry type tags used by the conversion rows. -/
inductive GeomTag
  | POINT
  | LINE
  | POLYGON
deriving DecidableEq, Repr

/-- The xy-projection `[(x, y) for x, y, _ in coords]` (line 36). -/
def xyProj (coords : List Pt3) : List Pt := coords.map (fun c => (c.1, c.2.1))

/-- Shallow embedding of `_coords_to_geom` (lines 35-43): drop z, then
classify a point sequence as POINT / POLYGON / LINE.  The returned geometry is
represented by its 2D coordinate list, exactly what the code passes to the
shapely constructors. -/
def coordsToGeom (coords : List Pt3) : Option (GeomTag × List Pt) :=
  let xy := xyProj coords
  if xy = [] then none
  else if xy.length = 1 then some (GeomTag.POINT, xy)
  else if xy.headI = xy.getLastI ∧ 4 ≤ xy.length then some (GeomTag.POLYGON, xy)
  else some (GeomTag.LINE, xy)

/-- The three line-merge tiers of the keep-merge pipeline. -/
inductive Strategy
  | robust
  | graph
  | explode
deriving DecidableEq, Repr

/-- Merge strategy selector (precise_convert, lines 459-465):
`strategy = "robust"; if segs_seen > medium: "explode"
elif segs_seen > small or elapsed_ms > soft: "graph"`. -/
def selectStrategy (segsSeen smallLimit mediumLimit : ℕ)
    (elapsedMs timeSoftMs : ℚ) : Strategy :=
  if mediumLimit < segsSeen then Strategy.explode
  else if smallLimit < segsSeen ∨ timeSoftMs < elapsedMs then Strategy.graph
  else Strategy.robust

theorem length_xyProj (coords : List Pt3) : (xyProj coords).length = coords.length := by
  simp [xyProj]

/-- C1: in keep-merge mode the strategy selector chooses explode whenever the
segment count exceeds the medium limit regardless of elapsed time, graph
whenever the count is between the limits or the count is small but the elapsed
collection time exceeds the soft budget, and robust otherwise. -/
theorem C1_strategy_selector (n smallLimit mediumLimit : ℕ) (elapsed budget : ℚ)
    (hsm : smallLimit ≤ mediumLimit) :
    (mediumLimit < n →
      selectStrategy n smallLimit mediumLimit elapsed budget = Strategy.explode) ∧
    (smallLimit < n → n ≤ mediumLimit →
      selectStrategy n smallLimit mediumLimit elapsed budget = Strategy.graph) ∧
    (n ≤ smallLimit → budget < elapsed →
      selectStrategy n smallLimit mediumLimit elapsed budget = Strategy.graph) ∧
    (n ≤ smallLimit → elapsed ≤ budget →
      selectStrategy n smallLimit mediumLimit elapsed budget = Strategy.robust) := by
  unfold selectStrategy
  refine ⟨?_, ?_, ?_, ?_⟩
  · intro h; rw [if_pos h]
  · intro h1 h2
    rw [if_neg (by omega), if_pos (Or.inl h1)]
  · intro h1 h2
    rw [if_neg (by omega), if_pos (Or.inr h2)]
  · intro h1 h2
    rw [if_neg (by omega), if_neg (by push_neg; exact ⟨by omega, h2⟩)]

theorem C1_strategy_selector_witness :
    ((2000 : ℕ) ≤ 20000) ∧
    selectStrategy 25000 2000 20000 0 2000 = Strategy.explode :=
  ⟨by decide, (C1_strategy_selector 25000 2000 20000 0 2000 (by decide)).1 (by decide)⟩

/-- C7: the point-sequence-to-geometry classification of `_coords_to_geom`:
a single point yields POINT, a sequence whose first and last (2D) point
coincide with at least 4 points yields POLYGON, any other non-empty sequence
yields LINE. -/
theorem C7_classification (coords : List Pt3) (hne : coords ≠ []) :
    (coords.length = 1 →
      coordsToGeom coords = some (GeomTag.POINT, xyProj coords)) ∧
    ((xyProj coords).headI = (xyProj coords).getLastI → 4 ≤ coords.length →
      coordsToGeom coords = some (GeomTag.POLYGON, xyProj coords)) ∧
    (coords.length ≠ 1 →
      ¬ ((xyProj coords).headI = (xyProj coords).getLastI ∧ 4 ≤ coords.length) →
      coordsToGeom coords = some (GeomTag.LINE, xyProj coords)) := by
  have hxy : xyProj coords ≠ [] := by
    intro h
    exact hne (List.map_eq_nil_iff.mp h)
  have hlen : (xyProj coords).length = coords.length := length_xyProj coords
  unfold coordsToGeom
  refine ⟨?_, ?_, ?_⟩
  · intro h1
    rw [if_neg hxy, if_pos (by omega)]
  · intro hcl h4
    rw [if_neg hxy, if_neg (by omega), if_pos ⟨hcl, by omega⟩]
  · intro h1 hno
    rw [if_neg hxy, if_neg (by omega), if_neg (by rw [hlen]; exact hno)]

theorem C7_classification_witness :
    (([((0:ℚ),(0:ℚ),(0:ℚ)), (1,0,0), (1,1,0), (0,0,0)] : List Pt3) ≠ []) ∧
    coordsToGeom [((0:ℚ),(0:ℚ),(0:ℚ)), (1,0,0), (1,1,0), (0,0,0)] =
      some (GeomTag.POLYGON, xyProj [((0:ℚ),(0:ℚ),(0:ℚ)), (1,0,0), (1,1,0), (0,0,0)]) :=
  ⟨by decide,
   (C7_classification [((0:ℚ),(0:ℚ),(0:ℚ)), (1,0,0), (1,1,0), (0,0,0)] (by decide)).2.1
     (by decide) (by decide)⟩

theorem abs_pyround_sub_le (x : ℚ) : |(pyround x : ℚ) - x| ≤ 1/2 := by
  have h0 : (⌊x⌋ : ℚ) ≤ x := Int.floor_le x
  have h1 : x < ⌊x⌋ + 1 := Int.lt_floor_add_one x
  unfold pyround
  split_ifs with ha hb hc
  · rw [abs_sub_comm, abs_of_nonneg (by linarith)]; linarith
  · push_cast
    rw [abs_of_nonneg (by linarith)]; linarith
  · rw [abs_sub_comm, abs_of_nonneg (by linarith)]; linarith
  · push_cast
    rw [abs_of_nonneg (by linarith)]; linarith

theorem quant_close (tol x y : ℚ) (ht : 0 < tol) (h : |x - y| < tol / 2) :
    |quant tol x - quant tol y| ≤ tol := by
  unfold quant
  rw [if_pos ht, if_pos ht]
  have hx := abs_pyround_sub_le (x / tol)
  have hy := abs_pyround_sub_le (y / tol)
  have hxy : |x / tol - y / tol| < 1 / 2 := by
    rw [div_sub_div_same, abs_div, abs_of_pos ht, div_lt_iff₀ ht]
    calc |x - y| < tol / 2 := h
    _ = 1 / 2 * tol := by ring
  have h3 : |(pyround (x / tol) : ℚ) - (pyround (y / tol) : ℚ)| < 3 / 2 := by
    calc |(pyround (x / tol) : ℚ) - (pyround (y / tol) : ℚ)|
        ≤ |(pyround (x / tol) : ℚ) - x / tol| + |x / tol - (pyround (y / tol) : ℚ)| :=
          abs_sub_le _ _ _
    _ ≤ |(pyround (x / tol) : ℚ) - x / tol| +
          (|x / tol - y / tol| + |y / tol - (pyround (y / tol) : ℚ)|) := by
          have := abs_sub_le (x / tol) (y / tol) ((pyround (y / tol) : ℚ))
          linarith
    _ < 3 / 2 := by
          rw [abs_sub_comm] at hy
          linarith
  have h4 : |pyround (x / tol) - pyround (y / tol)| ≤ 1 := by
    have hcast : ((|pyround (x / tol) - pyround (y / tol)| : ℤ) : ℚ) < 3 / 2 := by
      push_cast
      exact h3
    by_contra hcon
    push_neg at hcon
    have : (2 : ℚ) ≤ ((|pyround (x / tol) - pyround (y / tol)| : ℤ) : ℚ) := by
      exact_mod_cast hcon
    linarith
  calc |(pyround (x / tol) : ℚ) * tol - (pyround (y / tol) : ℚ) * tol|
      = |(pyround (x / tol) : ℚ) - (pyround (y / tol) : ℚ)| * tol := by
        rw [← sub_mul, abs_mul, abs_of_pos ht]
  _ ≤ 1 * tol := by
        apply mul_le_mul_of_nonneg_right _ (le_of_lt ht)
        have : ((|pyround (x / tol) - pyround (y / tol)| : ℤ) : ℚ) ≤ 1 := by
          exact_mod_cast h4
        calc |(pyround (x / tol) : ℚ) - (pyround (y / tol) : ℚ)|
            = ((|pyround (x / tol) - pyround (y / tol)| : ℤ) : ℚ) := by push_cast; ring_nf
        _ ≤ 1 := this
  _ = tol := one_mul tol

/-- C4 fails on the code: with tolerance 1 the endpoints (2/5, 0) and
(3/5, 0) differ by 1/5 < 1/2 in each axis, yet they quantize to the distinct
node keys (0, 0) and (1, 0), because rounding to the nearest multiple only
identifies coordinates that fall in the same half-open grid cell. -/
theorem C4_counterexample :
    (0 : ℚ) < 1 ∧ |(2/5 : ℚ) - 3/5| < 1 / 2 ∧ |(0 : ℚ) - 0| < 1 / 2 ∧
    qpt 1 (2/5, 0) ≠ qpt 1 (3/5, 0) := by
  refine ⟨by norm_num, by rw [abs_lt]; norm_num, by rw [abs_lt]; norm_num, ?_⟩
  have h1 : quant 1 (2/5) = 0 := by
    unfold quant pyround
    norm_num
  have h2 : quant 1 (3/5) = 1 := by
    unfold quant pyround
    norm_num
  intro hcon
  have := congrArg Prod.fst hcon
  simp only [qpt] at this
  rw [h1, h2] at this
  norm_num at this

/-- C4 amended: for every tolerance tol > 0 and every two endpoint
coordinates that differ by less than half the tolerance in each axis, the
coordinate quantizer maps them to node keys that agree up to at most one grid
step (difference at most tol) per axis; identical keys are guaranteed only
when both coordinates round to the same multiple of tol. -/
theorem C4_amended (tol : ℚ) (p q : Pt) (ht : 0 < tol)
    (hx : |p.1 - q.1| < tol / 2) (hy : |p.2 - q.2| < tol / 2) :
    |(qpt tol p).1 - (qpt tol q).1| ≤ tol ∧
    |(qpt tol p).2 - (qpt tol q).2| ≤ tol :=
  ⟨quant_close tol p.1 q.1 ht hx, quant_close tol p.2 q.2 ht hy⟩

theorem C4_amended_witness :
    ((0 : ℚ) < 1 ∧ |(2/5 : ℚ) - 3/5| < 1 / 2 ∧ |(0 : ℚ) - 0| < 1 / 2) ∧
    (|(qpt 1 ((2/5 : ℚ), (0 : ℚ))).1 - (qpt 1 ((3/5 : ℚ), (0 : ℚ))).1| ≤ 1 ∧
     |(qpt 1 ((2/5 : ℚ), (0 : ℚ))).2 - (qpt 1 ((3/5 : ℚ), (0 : ℚ))).2| ≤ 1) :=
  ⟨⟨by norm_num, by rw [abs_lt]; norm_num, by rw [abs_lt]; norm_num⟩,
   C4_amended 1 (2/5, 0) (3/5, 0) (by norm_num) (by rw [abs_lt]; norm_num) (by rw [abs_lt]; norm_num)⟩

/-- Per-ring processing of `_flatten_hatch_rings` (lines 83-93): build the
(x, y, 0) triples for one boundary ring and close the ring by appending its
first point when first and last differ. -/
def hatchRing (p : List Pt) : List Pt3 :=
  let ring := p.map (fun q => (q.1, q.2, (0 : ℚ)))
  if ring ≠ [] ∧ ring.headI ≠ ring.getLastI then ring ++ [ring.headI] else ring

/-- `_flatten_hatch_rings` over the raw boundary rings exposed by the document
library: every processed ring that is non-empty is kept. -/
def flattenHatchRings (raw : List (List Pt)) : List (List Pt3) :=
  (raw.map hatchRing).filter (fun r => !r.isEmpty)

/-- Rows produced for one filled-region (HATCH) entity by
`_precise_rows_from_entity` (lines 136-140): one geometry per usable ring. -/
def hatchRows (raw : List (List Pt)) : List (GeomTag × List Pt) :=
  (flattenHatchRings raw).filterMap coordsToGeom

/-- C8 fails on the code: a single-vertex boundary ring is not discarded.
Its only point equals itself, so no closing point is appended, the one-point
ring survives the non-emptiness filter, and `_coords_to_geom` turns it into a
POINT row. -/
theorem C8_counterexample :
    hatchRows [[((5 : ℚ), (7 : ℚ))]] = [(GeomTag.POINT, [((5 : ℚ), (7 : ℚ))])] := by
  decide

/-- C8 amended: each boundary ring is processed independently; a ring whose
first and last point differ has its first point appended before typing (an
unclosed 3-point ring becomes a 4-point POLYGON); an empty ring is discarded;
a single-vertex ring, however, is kept unchanged and produces a POINT row
rather than being discarded. -/
theorem C8_amended :
    (∀ p : List Pt, p ≠ [] →
      (p.map fun q => (q.1, q.2, (0 : ℚ))).headI ≠
        (p.map fun q => (q.1, q.2, (0 : ℚ))).getLastI →
      hatchRing p =
        (p.map fun q => (q.1, q.2, (0 : ℚ))) ++
          [(p.map fun q => (q.1, q.2, (0 : ℚ))).headI]) ∧
    (∀ a b c : Pt, a ≠ c →
      coordsToGeom (hatchRing [a, b, c]) = some (GeomTag.POLYGON, [a, b, c, a])) ∧
    (∀ rest : List (List Pt), flattenHatchRings ([] :: rest) = flattenHatchRings rest) ∧
    (∀ v : Pt, hatchRows [[v]] = [(GeomTag.POINT, [v])]) := by
  refine ⟨?_, ?_, ?_, ?_⟩
  · intro p hp hne
    unfold hatchRing
    rw [if_pos]
    exact ⟨by simpa using hp, hne⟩
  · intro a b c hac
    have hg : hatchRing [a, b, c] =
        [(a.1, a.2, 0), (b.1, b.2, 0), (c.1, c.2, 0), (a.1, a.2, 0)] := by
      simp only [hatchRing, List.map_cons, List.map_nil]
      rw [if_pos]
      · rfl
      · refine ⟨by simp, ?_⟩
        simp only [List.headI, List.getLastI, ne_eq, Prod.mk.injEq, not_and]
        intro h1 h2 _
        exact hac (Prod.ext h1 h2)
    rw [hg]
    simp only [coordsToGeom, xyProj, List.map_cons, List.map_nil]
    norm_num [List.getLastI]
    intro h
    exact absurd h (by simp)

  · intro rest
    unfold flattenHatchRings hatchRing
    simp
  · intro v
    simp [hatchRows, flattenHatchRings, hatchRing, coordsToGeom, xyProj, List.getLastI]

theorem C8_amended_witness :
    (((0 : ℚ), (0 : ℚ)) : Pt) ≠ ((1 : ℚ), (1 : ℚ)) ∧
    coordsToGeom (hatchRing [((0 : ℚ), (0 : ℚ)), ((0 : ℚ), (1 : ℚ)), ((1 : ℚ), (1 : ℚ))]) =
      some (GeomTag.POLYGON,
        [((0 : ℚ), (0 : ℚ)), ((0 : ℚ), (1 : ℚ)), ((1 : ℚ), (1 : ℚ)), ((0 : ℚ), (0 : ℚ))]) :=
  ⟨by decide, C8_amended.2.1 (0, 0) (0, 1) (1, 1) (by decide)⟩

/-- Zero out the third coordinate of a triple. -/
def zeroZ (c : Pt3) : Pt3 := (c.1, c.2.1, 0)

/-- Primary flattening `_flatten_with_path` (lines 45-48): the document
library's path flattener yields 2D vertices and the code records them with z
set to 0.0 unconditionally. -/
def flattenWithPath (verts : List Pt) : List Pt3 := verts.map (fun v => (v.1, v.2, 0))

/-- Fallback point list for a straight LINE entity (lines 117-120): the two
endpoints, keeping z only when include_3d is set. -/
def lineFallbackPts (s e : Pt3) (include3d : Bool) : List Pt3 :=
  [(s.1, s.2.1, if include3d then s.2.2 else 0),
   (e.1, e.2.1, if include3d then e.2.2 else 0)]

/-- Rows produced for a LINE entity by `_precise_rows_from_entity`
(lines 113-132): the primary flattening when the path library succeeds
(primary = some verts), otherwise the two-endpoint fallback; the resulting
point list is then classified by `_coords_to_geom`. -/
def lineEntityPts (s e : Pt3) (include3d : Bool) (primary : Option (List Pt)) : List Pt3 :=
  match primary with
  | some verts => flattenWithPath verts
  | none => lineFallbackPts s e include3d

def lineEntityRows (s e : Pt3) (include3d : Bool) (primary : Option (List Pt)) :
    List (GeomTag × List Pt) :=
  match coordsToGeom (lineEntityPts s e include3d primary) with
  | some r => [r]
  | none => []

/-- C9 fails on the code: even with the include-elevation flag set, a LINE
entity with endpoint z values 5 and 7 produces a purely 2D geometry, and its
output is identical to the output for the same entity with z = 0, because
`_coords_to_geom` discards the third coordinate of every point. -/
theorem C9_counterexample :
    lineEntityRows (0, 0, 5) (1, 1, 7) true none = [(GeomTag.LINE, [(0, 0), (1, 1)])] ∧
    lineEntityRows (0, 0, 5) (1, 1, 7) true none =
      lineEntityRows (0, 0, 0) (1, 1, 0) true none := by
  constructor <;> decide

/-- C9 amended: the produced geometry never retains the third coordinate,
whether or not the include-elevation flag is set: `_coords_to_geom` depends
only on the xy-projection of its input, so the flag only influences the
intermediate fallback point lists, whose z values are then dropped. -/
theorem C9_amended :
    (∀ c1 c2 : List Pt3, xyProj c1 = xyProj c2 → coordsToGeom c1 = coordsToGeom c2) ∧
    (∀ (s e : Pt3) (include3d : Bool) (primary : Option (List Pt)),
      lineEntityRows s e include3d primary =
        lineEntityRows (zeroZ s) (zeroZ e) include3d primary) := by
  have hbase : ∀ c1 c2 : List Pt3, xyProj c1 = xyProj c2 →
      coordsToGeom c1 = coordsToGeom c2 := by
    intro c1 c2 h
    unfold coordsToGeom
    rw [h]
  refine ⟨hbase, ?_⟩
  intro s e include3d primary
  unfold lineEntityRows
  cases primary with
  | some verts => rfl
  | none =>
      rw [hbase (lineEntityPts s e include3d none)
        (lineEntityPts (zeroZ s) (zeroZ e) include3d none) (by
          simp only [lineEntityPts, lineFallbackPts, zeroZ, xyProj]
          cases include3d <;> simp)]

theorem C9_amended_witness :
    xyProj [((0 : ℚ), (0 : ℚ), (5 : ℚ)), (1, 1, 7)] = xyProj [((0 : ℚ), (0 : ℚ), (0 : ℚ)), (1, 1, 0)] ∧
    coordsToGeom [((0 : ℚ), (0 : ℚ), (5 : ℚ)), (1, 1, 7)] =
      coordsToGeom [((0 : ℚ), (0 : ℚ), (0 : ℚ)), (1, 1, 0)] :=
  ⟨by decide,
   C9_amended.1 [((0 : ℚ), (0 : ℚ), (5 : ℚ)), (1, 1, 7)]
     [((0 : ℚ), (0 : ℚ), (0 : ℚ)), (1, 1, 0)] (by decide)⟩

/-- Keep-merge segment collection `_push_line_from_pts` (lines 411-423): drop
z, remove a closing duplicate point from a closed sequence of at least three
points, and collect sequences that still have at least two points as LINE
segments. -/
def pushLineFromPts (pts : List Pt3) : Option (List Pt) :=
  if pts = [] then none
  else
    let xy := xyProj pts
    if 2 ≤ xy.length then
      let xy2 := if xy.headI = xy.getLastI ∧ 3 ≤ xy.length then xy.dropLast else xy
      if 2 ≤ xy2.length then some xy2 else none
    else none

/-- A resolved block child relevant to keep-merge collection (lines 434-455):
linear/curved children carry flattened point sequences, filled-region and face
children carry boundary rings. -/
inductive KMChild
  | lineLike (pts : List Pt3)
  | areaLike (rings : List (List Pt))

/-- The keep-merge collection loop over a block instance's children
(precise_convert, lines 429-455): line-like children go through
`_push_line_from_pts` into the segment list, area-like children contribute
every boundary ring that `_coords_to_geom` classifies as POLYGON. -/
def collectKeepMerge (children : List KMChild) : List (List Pt) × List (List Pt) :=
  children.foldl
    (fun acc ch =>
      match ch with
      | KMChild.lineLike pts =>
          match pushLineFromPts pts with
          | some seg => (acc.1 ++ [seg], acc.2)
          | none => acc
      | KMChild.areaLike rings =>
          (acc.1,
           acc.2 ++ (flattenHatchRings rings).filterMap (fun ring =>
             match coordsToGeom ring with
             | some (GeomTag.POLYGON, g) => some g
             | _ => none)))
    ([], [])

theorem collectKeepMerge_go_polys (children : List KMChild)
    (h : ∀ ch ∈ children, ∃ pts, ch = KMChild.lineLike pts) :
    ∀ acc : List (List Pt) × List (List Pt),
      (children.foldl
        (fun acc ch =>
          match ch with
          | KMChild.lineLike pts =>
              match pushLineFromPts pts with
              | some seg => (acc.1 ++ [seg], acc.2)
              | none => acc
          | KMChild.areaLike rings =>
              (acc.1,
               acc.2 ++ (flattenHatchRings rings).filterMap (fun ring =>
                 match coordsToGeom ring with
                 | some (GeomTag.POLYGON, g) => some g
                 | _ => none))) acc).2 = acc.2 := by
  induction children with
  | nil => intro acc; rfl
  | cons ch rest ih =>
      intro acc
      obtain ⟨pts, rfl⟩ := h ch (List.mem_cons_self ch rest)
      have hrest : ∀ c ∈ rest, ∃ pts, c = KMChild.lineLike pts := by
        intro c hc
        exact h c (List.mem_cons_of_mem _ hc)
      cases hp : pushLineFromPts pts with
      | some seg => simp only [List.foldl_cons, hp]; exact ih hrest _
      | none => simp only [List.foldl_cons, hp]; exact ih hrest _

/-- C10: in keep-merge collection, a flattened line-like child whose 2D point
sequence is closed (first xy equals last xy) with at least 3 points has the
closing duplicate removed and is collected as an open LINE segment; and the
polygon list receives contributions only from area-like (filled-region/face)
children, so a closed line-like child never enters the collected set as a
polygon. -/
theorem C10_closed_children_are_lines :
    (∀ pts : List Pt3,
      (xyProj pts).headI = (xyProj pts).getLastI → 3 ≤ pts.length →
      pushLineFromPts pts = some ((xyProj pts).dropLast)) ∧
    (∀ children : List KMChild,
      (∀ ch ∈ children, ∃ pts, ch = KMChild.lineLike pts) →
      (collectKeepMerge children).2 = []) := by
  constructor
  · intro pts hcl h3
    have hlen : (xyProj pts).length = pts.length := length_xyProj pts
    have hne : pts ≠ [] := by intro h; rw [h] at h3; exact absurd h3 (by decide)
    simp only [pushLineFromPts]
    rw [if_neg hne, if_pos (show (2 : ℕ) ≤ (xyProj pts).length by omega),
      if_pos (And.intro hcl (show (3 : ℕ) ≤ (xyProj pts).length by omega)),
      if_pos (by rw [List.length_dropLast]; omega)]
  · intro children h
    exact collectKeepMerge_go_polys children h ([], [])

theorem C10_closed_children_are_lines_witness :
    ((xyProj [((0 : ℚ), (0 : ℚ), (0 : ℚ)), (1, 0, 0), (1, 1, 0), (0, 0, 0)]).headI =
      (xyProj [((0 : ℚ), (0 : ℚ), (0 : ℚ)), (1, 0, 0), (1, 1, 0), (0, 0, 0)]).getLastI) ∧
    pushLineFromPts [((0 : ℚ), (0 : ℚ), (0 : ℚ)), (1, 0, 0), (1, 1, 0), (0, 0, 0)] =
      some ((xyProj [((0 : ℚ), (0 : ℚ), (0 : ℚ)), (1, 0, 0), (1, 1, 0), (0, 0, 0)]).dropLast) :=
  ⟨by decide,
   C10_closed_children_are_lines.1
     [((0 : ℚ), (0 : ℚ), (0 : ℚ)), (1, 0, 0), (1, 1, 0), (0, 0, 0)] (by decide) (by decide)⟩

/-- Outcome of the keep-merge line handling for one block instance. -/
inductive KMOutcome (α : Type)
  | mergedLine (g : α)
  | exploded (segs : List (List Pt))
  | pointFallback

/-- Tiered line-merge dispatch of precise_convert (lines 478-504) for one
block instance: given the selector's initial strategy and the results of the
robust and graph tiers (none models a tier that returned nothing or an empty
geometry; the tier bodies call the external geometry library and are treated
as oracles here), return the ordered list of tiers attempted together with
the outcome.  When the collected segment list is empty the whole block is
skipped and control falls through to the point fallback of lines 505-510. -/
def lineMergeDispatch {α : Type} (strategy0 : Strategy)
    (robustRes graphRes : Option α) (lines : List (List Pt)) :
    List Strategy × KMOutcome α :=
  if lines = [] then ([], KMOutcome.pointFallback)
  else
    let s1 : List Strategy × Strategy × Option α :=
      if strategy0 = Strategy.robust then
        match robustRes with
        | some g => ([Strategy.robust], Strategy.robust, some g)
        | none => ([Strategy.robust], Strategy.graph, none)
      else ([], strategy0, none)
    let s2 : List Strategy × Strategy × Option α :=
      if s1.2.1 = Strategy.graph then
        match graphRes with
        | some g => (s1.1 ++ [Strategy.graph], Strategy.graph, some g)
        | none => (s1.1 ++ [Strategy.graph], Strategy.explode, none)
      else s1
    if s2.2.1 = Strategy.explode then
      (s2.1 ++ [Strategy.explode],
       KMOutcome.exploded (lines.filter (fun l => !l.isEmpty)))
    else
      match s2.2.2 with
      | some g => (s2.1, KMOutcome.mergedLine g)
      | none => (s2.1, KMOutcome.pointFallback)

/-- Numeric rank of the three tiers in downgrade order. -/
def tierIdx : Strategy → ℕ
  | Strategy.robust => 0
  | Strategy.graph => 1
  | Strategy.explode => 2

/-- C5: the keep-merge fallback attempts tiers in the fixed order
robust → graph → explode: the attempted-tier list is strictly increasing in
that order (so no tier is retried and no earlier tier ever follows a later
one), a failed robust merge is followed by exactly one graph attempt, and a
failed graph merge is followed by exactly one explode attempt. -/
theorem C5_tier_downgrade {α : Type} (strategy0 : Strategy)
    (robustRes graphRes : Option α) (lines : List (List Pt)) (hl : lines ≠ []) :
    List.Chain' (fun s t => tierIdx s < tierIdx t)
      (lineMergeDispatch strategy0 robustRes graphRes lines).1 ∧
    (Strategy.robust ∈ (lineMergeDispatch strategy0 robustRes graphRes lines).1 →
      robustRes = none →
      (lineMergeDispatch strategy0 robustRes graphRes lines).1.count Strategy.graph = 1) ∧
    (Strategy.graph ∈ (lineMergeDispatch strategy0 robustRes graphRes lines).1 →
      graphRes = none →
      (lineMergeDispatch strategy0 robustRes graphRes lines).1.count Strategy.explode = 1) ∧
    (∀ s : Strategy,
      (lineMergeDispatch strategy0 robustRes graphRes lines).1.count s ≤ 1) := by
  cases strategy0 <;> cases robustRes <;> cases graphRes <;>
    simp only [lineMergeDispatch, if_neg hl] <;>
    refine ⟨by simp [tierIdx], by simp [List.count_cons], by simp [List.count_cons], ?_⟩ <;>
    intro s <;> cases s <;> simp [List.count_cons]

theorem C5_tier_downgrade_witness :
    (([[((0 : ℚ), (0 : ℚ)), ((1 : ℚ), (0 : ℚ))]] : List (List Pt)) ≠ []) ∧
    (List.Chain' (fun s t => tierIdx s < tierIdx t)
      (lineMergeDispatch (α := ℕ) Strategy.robust none none
        [[((0 : ℚ), (0 : ℚ)), ((1 : ℚ), (0 : ℚ))]]).1 ∧
    (Strategy.robust ∈ (lineMergeDispatch (α := ℕ) Strategy.robust none none
        [[((0 : ℚ), (0 : ℚ)), ((1 : ℚ), (0 : ℚ))]]).1 →
      (none : Option ℕ) = none →
      (lineMergeDispatch (α := ℕ) Strategy.robust none none
        [[((0 : ℚ), (0 : ℚ)), ((1 : ℚ), (0 : ℚ))]]).1.count Strategy.graph = 1) ∧
    (Strategy.graph ∈ (lineMergeDispatch (α := ℕ) Strategy.robust none none
        [[((0 : ℚ), (0 : ℚ)), ((1 : ℚ), (0 : ℚ))]]).1 →
      (none : Option ℕ) = none →
      (lineMergeDispatch (α := ℕ) Strategy.robust none none
        [[((0 : ℚ), (0 : ℚ)), ((1 : ℚ), (0 : ℚ))]]).1.count Strategy.explode = 1) ∧
    (∀ s : Strategy,
      (lineMergeDispatch (α := ℕ) Strategy.robust none none
        [[((0 : ℚ), (0 : ℚ)), ((1 : ℚ), (0 : ℚ))]]).1.count s ≤ 1)) :=
  ⟨by decide,
   C5_tier_downgrade Strategy.robust none none
     [[((0 : ℚ), (0 : ℚ)), ((1 : ℚ), (0 : ℚ))]] (by decide)⟩

/-- A row contributed by one INSERT instance in keep-merge mode. -/
inductive InsertRow (α β : Type)
  | poly (g : β)
  | line (g : α)
  | seg (s : List Pt)
  | point (p : Pt)

/-- Keep-merge handling of one INSERT instance (precise_convert lines
467-511): a usable polygon union takes precedence; otherwise the line-merge
dispatch runs; a merged line yields one LINE row, the explode tier yields one
LINE row per collected segment, and if nothing was usable the instance
degrades to a single POINT row at its insertion coordinate. -/
def keepMergeInsert {α β : Type} (polyRes : Option β) (strategy0 : Strategy)
    (robustRes graphRes : Option α) (lines : List (List Pt)) (insertPt : Pt) :
    List (InsertRow α β) :=
  match polyRes with
  | some g => [InsertRow.poly g]
  | none =>
    match (lineMergeDispatch strategy0 robustRes graphRes lines).2 with
    | KMOutcome.mergedLine g => [InsertRow.line g]
    | KMOutcome.exploded segs => segs.map InsertRow.seg
    | KMOutcome.pointFallback => [InsertRow.point insertPt]

/-- A row contributed by one INSERT instance in explode mode. -/
inductive ExplodeRow (γ : Type)
  | child (r : γ)
  | point (p : Pt)

/-- Explode-mode handling of one INSERT instance (precise_convert lines
513-526): if expansion produced anything the child rows stand; if expansion
failed entirely (no child was processed) the instance degrades to a single
POINT row at its insertion coordinate. -/
def explodeInsert {γ : Type} (expanded : Option (List γ)) (insertPt : Pt) :
    List (ExplodeRow γ) :=
  match expanded with
  | some rs => rs.map ExplodeRow.child
  | none => [ExplodeRow.point insertPt]

/-- C6: an INSERT instance is never dropped.  In keep-merge mode, when neither
the polygon union nor any line-merge tier yields a usable geometry and no
exploded line rows are emitted (which in the code happens exactly when the
collected segment list is empty, since a non-empty segment list always ends in
the explode tier emitting its segments), the instance contributes exactly one
POINT row at its insertion coordinate; keep-merge output is never empty when
the collected segments are themselves usable; and in explode mode an instance
whose child expansion fails entirely contributes exactly one POINT row. -/
theorem C6_never_dropped {α β γ : Type} :
    (∀ (strategy0 : Strategy) (robustRes graphRes : Option α) (ip : Pt),
      keepMergeInsert (α := α) (β := β) none strategy0 robustRes graphRes [] ip =
        [InsertRow.point ip]) ∧
    (∀ (polyRes : Option β) (strategy0 : Strategy) (robustRes graphRes : Option α)
        (lines : List (List Pt)) (ip : Pt),
      (∀ l ∈ lines, l ≠ []) →
      keepMergeInsert polyRes strategy0 robustRes graphRes lines ip ≠ []) ∧
    (∀ ip : Pt, explodeInsert (γ := γ) none ip = [ExplodeRow.point ip]) := by
  refine ⟨?_, ?_, ?_⟩
  · intro strategy0 robustRes graphRes ip
    simp [keepMergeInsert, lineMergeDispatch]
  · intro polyRes strategy0 robustRes graphRes lines ip hl
    cases polyRes with
    | some g => simp [keepMergeInsert]
    | none =>
      by_cases hnil : lines = []
      · subst hnil
        simp [keepMergeInsert, lineMergeDispatch]
      · have hfilter : lines.filter (fun l => !l.isEmpty) ≠ [] := by
          cases lines with
          | nil => exact absurd rfl hnil
          | cons l rest =>
            have hlne : l ≠ [] := hl l (List.mem_cons_self l rest)
            simp only [List.filter_cons]
            rw [if_pos (by simp [List.isEmpty_iff, hlne])]
            exact List.cons_ne_nil _ _
        cases strategy0 <;> cases robustRes <;> cases graphRes <;>
          simp [keepMergeInsert, lineMergeDispatch, if_neg hnil, hfilter]
  · intro ip
    rfl

theorem C6_never_dropped_witness :
    (∀ l ∈ ([[((0 : ℚ), (0 : ℚ)), ((1 : ℚ), (0 : ℚ))]] : List (List Pt)), l ≠ []) ∧
    keepMergeInsert (α := ℕ) (β := ℕ) none Strategy.robust none none
      [[((0 : ℚ), (0 : ℚ)), ((1 : ℚ), (0 : ℚ))]] (5, 5) ≠ [] :=
  ⟨by decide,
   (C6_never_dropped (α := ℕ) (β := ℕ) (γ := ℕ)).2.1 none Strategy.robust none none
     [[((0 : ℚ), (0 : ℚ)), ((1 : ℚ), (0 : ℚ))]] (5, 5) (by decide)⟩

/-- A graph edge of `_merge_lines_graph` (lines 213-236): the two quantized
endpoints plus the full original coordinate list of the segment. -/
structure Edge where
  a : Pt
  b : Pt
  coords : List Pt
deriving DecidableEq, Repr, Inhabited

/-- Endpoint extraction loop of `_merge_lines_graph` (lines 217-227): one
edge per input polyline having at least two coordinates, with both end
coordinates quantized. -/
def endpointsOf (tol : ℚ) (lines : List (List Pt)) : List Edge :=
  lines.filterMap (fun coords =>
    if 2 ≤ coords.length then
      some ⟨qpt tol coords.headI, qpt tol coords.getLastI, coords⟩
    else none)

/-- Adjacency list of a node (lines 230-236): for each edge index i in
collection order, i is appended once when the node is its a endpoint and once
when the node is its b endpoint (twice for a self loop, as in the Python
defaultdict construction). -/
def adj (edges : List Edge) (n : Pt) : List ℕ :=
  (edges.enum.map (fun p =>
    (if p.2.a = n then [p.1] else []) ++ (if p.2.b = n then [p.1] else []))).flatten

/-- Degree of a node (node_deg): the number of incident edge slots. -/
def deg (edges : List Edge) (n : Pt) : ℕ := (adj edges n).length

/-- First-occurrence deduplication, the iteration order of a Python dict's
keys: node_deg is populated in the order a0, b0, a1, b1, ... -/
def firstDedup : List Pt → List Pt
  | [] => []
  | x :: xs => x :: firstDedup (xs.filter (fun y => decide (y ≠ x)))
termination_by l => l.length
decreasing_by
  simp only [List.length_cons]
  exact Nat.lt_succ_of_le (List.length_filter_le _ _)

/-- The node iteration order of the phase-1 loop (line 264). -/
def nodeOrder (edges : List Edge) : List Pt :=
  firstDedup ((edges.map (fun e => [e.a, e.b])).flatten)

/-- First unconsumed edge index in an adjacency list (lines 243-246 and
277-280): treats an out-of-range index as consumed (never happens on the
states reachable from the code). -/
def findUnused (used : List Bool) : List ℕ → Option ℕ
  | [] => none
  | i :: rest => if used.getD i true then findUnused used rest else some i

/-- Path concatenation step (lines 254-257 and 288): the first segment starts
the path; later segments drop their first coordinate exactly when it
coincides with the path's current last coordinate. -/
def appendSeg (path seg : List Pt) : List Pt :=
  if path = [] then seg
  else path ++ (if path.getLastI = seg.headI then seg.tail else seg)

/-- Orientation of a consumed edge as walked from node cur (lines 250-253):
forward when cur is the stored a endpoint, else reversed. -/
def orientSeg (e : Edge) (cur : Pt) : List Pt :=
  if e.a = cur then e.coords else e.coords.reverse

/-- The node reached after walking an edge from cur (lines 250-253). -/
def otherEnd (e : Edge) (cur : Pt) : Pt :=
  if e.a = cur then e.b else e.a

/-- The edge-chaining walk shared by `build_path` (lines 239-261, starting
from an empty path) and by the phase-2 cycle walk (lines 275-290, starting
from an already-consumed first segment): repeatedly consume the first
unconsumed edge at the current node, extend the path, and stop when the
reached node has degree different from 2 or no unconsumed edge remains.  The
fuel argument only bounds the iteration count; every call below supplies
enough fuel for all reachable states. -/
def walkFrom (edges : List Edge) : ℕ → Pt → List Bool → List Pt → List Pt × List Bool
  | 0, _, used, path => (path, used)
  | fuel + 1, cur, used, path =>
    match findUnused used (adj edges cur) with
    | none => (path, used)
    | some ei =>
      let used2 := used.set ei true
      let e := edges.getD ei default
      let path2 := appendSeg path (orientSeg e cur)
      if deg edges (otherEnd e cur) ≠ 2 then (path2, used2)
      else walkFrom edges fuel (otherEnd e cur) used2 path2

/-- The inner while loop of phase 1 (lines 266-270): while the node still has
an unconsumed edge, run build_path from it and collect results of at least
two coordinates. -/
def phase1Node (edges : List Edge) :
    ℕ → Pt → List Bool → List (List Pt) → List (List Pt) × List Bool
  | 0, _, used, acc => (acc, used)
  | fuel + 1, node, used, acc =>
    if (adj edges node).any (fun ei => !(used.getD ei true)) then
      let r := walkFrom edges (edges.length + 1) node used []
      phase1Node edges fuel node r.2 (if 2 ≤ r.1.length then acc ++ [r.1] else acc)
    else (acc, used)

/-- Phase 1 of `_merge_lines_graph` (lines 263-270): walk open chains
starting from every node of degree different from 2, in node insertion
order. -/
def phase1 (edges : List Edge) (used : List Bool) : List (List Pt) × List Bool :=
  (nodeOrder edges).foldl
    (fun st node =>
      if deg edges node ≠ 2 then phase1Node edges (edges.length + 1) node st.2 st.1
      else st)
    ([], used)

/-- Phase 2 of `_merge_lines_graph` (lines 271-293): sweep the edge indices
in order; every still-unconsumed edge starts a cycle walk continuing from its
b endpoint with its own coordinates as the initial path. -/
def phase2Go (edges : List Edge) :
    List ℕ → List Bool → List (List Pt) → List (List Pt) × List Bool
  | [], used, acc => (acc, used)
  | ei :: rest, used, acc =>
    if used.getD ei true then phase2Go edges rest used acc
    else
      let e := edges.getD ei default
      let r := walkFrom edges (edges.length + 1) e.b (used.set ei true) e.coords
      phase2Go edges rest r.2 (if 2 ≤ r.1.length then acc ++ [r.1] else acc)

def phase2 (edges : List Edge) (used : List Bool) : List (List Pt) × List Bool :=
  phase2Go edges (List.range edges.length) used []

/-- Result of `_merge_lines_graph`: a single polyline when exactly one was
reconstructed, otherwise a multi-polyline keeping the parts of positive
geometric length. -/
inductive MergeResult
  | single (coords : List Pt)
  | multi (parts : List (List Pt))
deriving DecidableEq, Repr

/-- Shapely's `ls.length > 0` for a polyline given by its coordinates: some
consecutive coordinate pair differs. -/
def positiveLength (c : List Pt) : Bool :=
  (c.zip c.tail).any (fun pq => decide (pq.1 ≠ pq.2))

/-- Shallow embedding of `_merge_lines_graph` (lines 213-296). -/
def mergeLinesGraph (tol : ℚ) (lines : List (List Pt)) : Option MergeResult :=
  if lines = [] then none
  else
    let edges := endpointsOf tol lines
    if edges = [] then none
    else
      let r1 := phase1 edges (List.replicate edges.length false)
      let r2 := phase2 edges r1.2
      let merged := r1.1 ++ r2.1
      if merged = [] then none
      else if merged.length = 1 then some (MergeResult.single merged.headI)
      else some (MergeResult.multi (merged.filter positiveLength))

/-! Helper lemmas about the consumed-edge state, adjacency and degrees, used
to analyse the reconstruction walks of `_merge_lines_graph`. -/

/-- Mark a list of edge indices as consumed, in order. -/
def setTrues (u : List Bool) (ps : List ℕ) : List Bool :=
  ps.foldl (fun v p => v.set p true) u

theorem setTrues_nil (u : List Bool) : setTrues u [] = u := rfl

theorem setTrues_cons (u : List Bool) (p : ℕ) (ps : List ℕ) :
    setTrues u (p :: ps) = setTrues (u.set p true) ps := rfl

theorem length_setTrues (ps : List ℕ) (u : List Bool) :
    (setTrues u ps).length = u.length := by
  induction ps generalizing u with
  | nil => rfl
  | cons p ps ih => rw [setTrues_cons, ih, List.length_set]

theorem getD_set_bool (u : List Bool) (i p : ℕ) (b : Bool) :
    (u.set i b).getD p true = if p = i ∧ i < u.length then b else u.getD p true := by
  by_cases hpi : p = i
  · subst hpi
    rcases Nat.lt_or_ge p u.length with hp | hp
    · rw [if_pos ⟨rfl, hp⟩, List.getD_eq_getElem _ _ (by simpa using hp)]
      simp [List.getElem_set]
    · rw [if_neg (by omega), List.getD_eq_default _ _ (by simpa using hp),
        List.getD_eq_default _ _ (by omega)]
  · rw [if_neg (fun hcon => hpi hcon.1), List.getD_eq_getD_get?, List.getD_eq_getD_get?,
      List.get?_eq_getElem?, List.get?_eq_getElem?, List.getElem?_set_ne (by omega)]

theorem getD_setTrues (ps : List ℕ) (u : List Bool) (p : ℕ) :
    (setTrues u ps).getD p true =
      if p ∈ ps ∧ p < u.length then true else u.getD p true := by
  induction ps generalizing u with
  | nil =>
      rw [setTrues_nil, if_neg (by intro hcon; exact absurd hcon.1 (List.not_mem_nil p))]
  | cons q ps ih =>
      rw [setTrues_cons, ih, List.length_set, getD_set_bool]
      by_cases hps : p ∈ ps ∧ p < u.length
      · rw [if_pos hps, if_pos ⟨List.mem_cons_of_mem q hps.1, hps.2⟩]
      · rw [if_neg hps]
        by_cases hpq : p = q ∧ q < u.length
        · rw [if_pos hpq, if_pos ⟨by rw [hpq.1]; exact List.mem_cons_self q ps, by omega⟩]
        · rw [if_neg hpq, if_neg (by
            intro hcon
            rcases List.mem_cons.mp hcon.1 with h1 | h1
            · exact hpq ⟨h1, by omega⟩
            · exact hps ⟨h1, hcon.2⟩)]

theorem getD_replicate_false (n p : ℕ) :
    (List.replicate n false).getD p true = if p < n then false else true := by
  rcases Nat.lt_or_ge p n with h | h
  · rw [if_pos h, List.getD_eq_getElem _ _ (by simpa using h), List.getElem_replicate]
  · rw [if_neg (by omega), List.getD_eq_default _ _ (by simpa using h)]

theorem findUnused_eq_none (used : List Bool) (l : List ℕ)
    (h : ∀ i ∈ l, used.getD i true = true) : findUnused used l = none := by
  induction l with
  | nil => rfl
  | cons i rest ih =>
      unfold findUnused
      rw [if_pos (h i (List.mem_cons_self i rest))]
      exact ih (fun j hj => h j (List.mem_cons_of_mem i hj))

theorem findUnused_eq_some (used : List Bool) (l : List ℕ) (x : ℕ)
    (hx : x ∈ l) (hux : used.getD x true = false)
    (huniq : ∀ y ∈ l, used.getD y true = false → y = x) :
    findUnused used l = some x := by
  induction l with
  | nil => exact absurd hx (List.not_mem_nil x)
  | cons i rest ih =>
      unfold findUnused
      by_cases hi : used.getD i true = true
      · rw [if_pos hi]
        rcases List.mem_cons.mp hx with rfl | hx2
        · rw [hux] at hi; exact absurd hi (by simp)
        · exact ih hx2 (fun y hy hfy => huniq y (List.mem_cons_of_mem i hy) hfy)
      · rw [if_neg hi]
        have : i = x := huniq i (List.mem_cons_self i rest) (by
          cases h : used.getD i true
          · rfl
          · exact absurd h hi)
        rw [this]

theorem mem_adj (edges : List Edge) (n : Pt) (p : ℕ) :
    p ∈ adj edges n ↔ p < edges.length ∧
      ((edges.getD p default).a = n ∨ (edges.getD p default).b = n) := by
  unfold adj
  rw [List.mem_flatten]
  constructor
  · rintro ⟨l, hl, hpl⟩
    rw [List.mem_map] at hl
    obtain ⟨⟨i, e⟩, hie, rfl⟩ := hl
    have hget : edges[i]? = some e := List.mk_mem_enum_iff_getElem?.mp hie
    have hlt : i < edges.length := by
      by_contra hcon
      rw [List.getElem?_eq_none (by omega)] at hget
      exact Option.noConfusion hget
    have hgd : edges.getD i default = e := by
      rw [List.getD_eq_getD_get?, List.get?_eq_getElem?, hget]
      rfl
    rcases List.mem_append.mp hpl with h | h
    · by_cases hae : e.a = n
      · rw [if_pos hae] at h
        rcases List.mem_singleton.mp h with rfl
        exact ⟨hlt, Or.inl (by rw [hgd]; exact hae)⟩
      · rw [if_neg hae] at h
        exact absurd h (List.not_mem_nil p)
    · by_cases hbe : e.b = n
      · rw [if_pos hbe] at h
        rcases List.mem_singleton.mp h with rfl
        exact ⟨hlt, Or.inr (by rw [hgd]; exact hbe)⟩
      · rw [if_neg hbe] at h
        exact absurd h (List.not_mem_nil p)
  · rintro ⟨hp, hab⟩
    refine ⟨(if (edges.getD p default).a = n then [p] else []) ++
      (if (edges.getD p default).b = n then [p] else []), ?_, ?_⟩
    · rw [List.mem_map]
      refine ⟨(p, edges.getD p default), ?_, rfl⟩
      rw [List.mk_mem_enum_iff_getElem?]
      rw [List.getElem?_eq_getElem (by simpa using hp)]
      rw [List.getD_eq_getElem _ _ (by simpa using hp)]
    · rcases hab with h | h
      · exact List.mem_append.mpr (Or.inl (by rw [if_pos h]; exact List.mem_singleton.mpr rfl))
      · exact List.mem_append.mpr (Or.inr (by rw [if_pos h]; exact List.mem_singleton.mpr rfl))

/-- Incidence count of one edge at a node. -/
def incCount (n : Pt) (e : Edge) : ℕ :=
  (if e.a = n then 1 else 0) + (if e.b = n then 1 else 0)

theorem deg_eq_sum (edges : List Edge) (n : Pt) :
    deg edges n = (edges.map (incCount n)).sum := by
  unfold deg adj
  rw [List.length_flatten, List.map_map]
  have h1 : (List.length ∘ fun p : ℕ × Edge =>
      (if p.2.a = n then [p.1] else []) ++ (if p.2.b = n then [p.1] else [])) =
      (incCount n) ∘ Prod.snd := by
    funext p
    simp only [Function.comp, List.length_append, incCount]
    congr 1 <;> split_ifs <;> rfl
  rw [h1, ← List.map_map, List.enum_map_snd]

theorem map_getD_range {α : Type} [Inhabited α] (l : List α) :
    (List.range l.length).map (fun i => l.getD i default) = l := by
  apply List.ext_getElem
  · simp
  · intro i h1 h2
    simp only [List.getElem_map, List.getElem_range]
    rw [List.getD_eq_getElem _ _ (by simpa using h2)]

/-! Algebra of the path-concatenation step `appendSeg` (the extend with
duplicate-point suppression of lines 254-257 and 288). -/

theorem headI_reverse (l : List Pt) : l.reverse.headI = l.getLastI := by
  cases l using List.reverseRecOn with
  | nil => rfl
  | append_singleton t a =>
      rw [List.reverse_append]
      simp [List.getLastI_eq_getLast?]

theorem getLastI_reverse (l : List Pt) : l.reverse.getLastI = l.headI := by
  have := headI_reverse l.reverse
  rw [List.reverse_reverse] at this
  exact this.symm

theorem cons_headI_tail {l : List Pt} (h : l ≠ []) : l.headI :: l.tail = l := by
  cases l with
  | nil => exact absurd rfl h
  | cons a t => rfl

theorem getLastI_append_right (l m : List Pt) (hm : m ≠ []) :
    (l ++ m).getLastI = m.getLastI := by
  rw [List.getLastI_eq_getLast?, List.getLastI_eq_getLast?,
    List.getLast?_append_of_ne_nil l hm]

theorem getLastI_tail {seg : List Pt} (h2 : 2 ≤ seg.length) :
    seg.tail.getLastI = seg.getLastI := by
  cases seg with
  | nil => exact absurd h2 (by decide)
  | cons a t =>
      cases t with
      | nil => simp at h2
      | cons b t2 =>
          rw [List.tail_cons, List.getLastI_eq_getLast?, List.getLastI_eq_getLast?,
            List.getLast?_cons_cons]

theorem appendSeg_nil (seg : List Pt) : appendSeg [] seg = seg := by
  unfold appendSeg
  rw [if_pos rfl]

theorem appendSeg_nil_right (p : List Pt) : appendSeg p [] = p := by
  unfold appendSeg
  by_cases hp : p = []
  · rw [if_pos hp, hp]
  · rw [if_neg hp]
    split_ifs <;> simp

theorem appendSeg_ne_nil_left {path : List Pt} (seg : List Pt) (hp : path ≠ []) :
    appendSeg path seg ≠ [] := by
  unfold appendSeg
  rw [if_neg hp]
  simp [hp]

theorem headI_appendSeg {path : List Pt} (seg : List Pt) (hp : path ≠ []) :
    (appendSeg path seg).headI = path.headI := by
  unfold appendSeg
  rw [if_neg hp]
  cases path with
  | nil => exact absurd rfl hp
  | cons a t => rfl

theorem getLastI_appendSeg {seg : List Pt} (path : List Pt) (h2 : 2 ≤ seg.length) :
    (appendSeg path seg).getLastI = seg.getLastI := by
  have hsne : seg ≠ [] := by intro h; rw [h] at h2; exact absurd h2 (by decide)
  unfold appendSeg
  by_cases hp : path = []
  · rw [if_pos hp]
  · rw [if_neg hp]
    split_ifs with hd
    · rw [getLastI_append_right _ _ (by
        intro h
        have := congrArg List.length h
        rw [List.length_tail] at this
        simp at this
        omega)]
      exact getLastI_tail h2
    · exact getLastI_append_right _ _ hsne

theorem length_appendSeg_ge {path : List Pt} (seg : List Pt) (hp : path ≠ []) :
    path.length ≤ (appendSeg path seg).length := by
  unfold appendSeg
  rw [if_neg hp, List.length_append]
  omega

theorem two_le_length_appendSeg {path seg : List Pt} (h : 2 ≤ seg.length) :
    2 ≤ (appendSeg path seg).length := by
  by_cases hp : path = []
  · rw [hp, appendSeg_nil]; exact h
  · unfold appendSeg
    rw [if_neg hp, List.length_append]
    split_ifs with hd
    · rw [List.length_tail]
      have : 1 ≤ path.length := by
        cases path
        · exact absurd rfl hp
        · simp
      omega
    · omega

theorem appendSeg_of_ne_nil {path : List Pt} (seg : List Pt) (hp : path ≠ []) :
    appendSeg path seg = path ++ (if path.getLastI = seg.headI then seg.tail else seg) := by
  unfold appendSeg
  rw [if_neg hp]

theorem appendSeg_assoc {s : List Pt} (p r : List Pt) (hs : 2 ≤ s.length) :
    appendSeg (appendSeg p s) r = appendSeg p (appendSeg s r) := by
  by_cases hp : p = []
  · rw [hp, appendSeg_nil, appendSeg_nil]
  · have hsne : s ≠ [] := by intro h; rw [h] at hs; exact absurd hs (by decide)
    have h4 : appendSeg p s ≠ [] := appendSeg_ne_nil_left _ hp
    rw [appendSeg_of_ne_nil r h4, appendSeg_of_ne_nil (appendSeg s r) hp,
      getLastI_appendSeg p hs, headI_appendSeg r hsne,
      appendSeg_of_ne_nil s hp, appendSeg_of_ne_nil r hsne]
    by_cases hd1 : p.getLastI = s.headI
    · rw [if_pos hd1, if_pos hd1]
      rw [show (s ++ (if s.getLastI = r.headI then r.tail else r)).tail =
          s.tail ++ (if s.getLastI = r.headI then r.tail else r) from by
        cases s with
        | nil => exact absurd rfl hsne
        | cons a t => rfl]
      rw [List.append_assoc]
    · rw [if_neg hd1, if_neg hd1, List.append_assoc]

theorem appendSeg_reverse {p s : List Pt} (hp : p ≠ []) (hs : s ≠ []) :
    (appendSeg p s).reverse = appendSeg s.reverse p.reverse := by
  have hsr : s.reverse ≠ [] := by simpa using hs
  rw [appendSeg_of_ne_nil s hp, appendSeg_of_ne_nil p.reverse hsr,
    getLastI_reverse, headI_reverse]
  by_cases hd : p.getLastI = s.headI
  · rw [if_pos hd, if_pos hd.symm, List.reverse_append]
    rw [show s.reverse = s.tail.reverse ++ [s.headI] from by
      cases s with
      | nil => exact absurd rfl hs
      | cons a t => rw [List.reverse_cons]; rfl]
    rw [show p.reverse = p.getLastI :: p.reverse.tail from by
      rw [← headI_reverse]
      exact (cons_headI_tail (by simpa using hp)).symm]
    rw [hd, List.append_assoc]
    rfl
  · rw [if_neg hd, if_neg (fun hcon => hd hcon.symm), List.reverse_append]

/-! Lemmas about folding `appendSeg` over a list of segments. -/

theorem foldl_appendSeg_ne_nil (segs : List (List Pt)) (path : List Pt) (hp : path ≠ []) :
    segs.foldl appendSeg path ≠ [] := by
  induction segs generalizing path with
  | nil => exact hp
  | cons s rest ih => exact ih _ (appendSeg_ne_nil_left s hp)

theorem foldl_appendSeg_headI (segs : List (List Pt)) (path : List Pt) (hp : path ≠ []) :
    (segs.foldl appendSeg path).headI = path.headI := by
  induction segs generalizing path with
  | nil => rfl
  | cons s rest ih =>
      rw [List.foldl_cons, ih _ (appendSeg_ne_nil_left s hp), headI_appendSeg s hp]

theorem foldl_appendSeg_getLastI (segs : List (List Pt)) (path : List Pt)
    (h2 : ∀ s ∈ segs, 2 ≤ s.length) (hne : segs ≠ []) :
    (segs.foldl appendSeg path).getLastI = segs.getLastI.getLastI := by
  induction segs generalizing path with
  | nil => exact absurd rfl hne
  | cons s rest ih =>
      cases rest with
      | nil =>
          rw [List.foldl_cons, List.foldl_nil]
          exact getLastI_appendSeg path (h2 s (List.mem_cons_self s []))
      | cons r rest2 =>
          rw [List.foldl_cons,
            ih _ (fun x hx => h2 x (List.mem_cons_of_mem s hx)) (List.cons_ne_nil r rest2)]
          rw [show (s :: r :: rest2).getLastI = (r :: rest2).getLastI from by
            rw [List.getLastI_eq_getLast?, List.getLastI_eq_getLast?, List.getLast?_cons_cons]]

theorem two_le_foldl_appendSeg (segs : List (List Pt)) (path : List Pt)
    (hp2 : 2 ≤ path.length) : 2 ≤ (segs.foldl appendSeg path).length := by
  induction segs generalizing path with
  | nil => exact hp2
  | cons s rest ih =>
      rw [List.foldl_cons]
      apply ih
      calc 2 ≤ path.length := hp2
      _ ≤ (appendSeg path s).length := length_appendSeg_ge s (by
          intro h; rw [h] at hp2; exact absurd hp2 (by decide))

theorem foldl_appendSeg_from (X : List (List Pt)) (p : List Pt)
    (h2 : ∀ x ∈ X, 2 ≤ x.length) :
    X.foldl appendSeg p = appendSeg p (X.foldl appendSeg []) := by
  induction X generalizing p with
  | nil => exact (appendSeg_nil_right p).symm
  | cons x X ih =>
      rw [List.foldl_cons, List.foldl_cons, appendSeg_nil]
      rw [ih _ (fun y hy => h2 y (List.mem_cons_of_mem x hy))]
      rw [appendSeg_assoc p _ (h2 x (List.mem_cons_self x X))]
      rw [← ih _ (fun y hy => h2 y (List.mem_cons_of_mem x hy))]

theorem foldl_appendSeg_reverse (segs : List (List Pt))
    (h2 : ∀ s ∈ segs, 2 ≤ s.length) :
    ((segs.map List.reverse).reverse).foldl appendSeg [] =
      (segs.foldl appendSeg []).reverse := by
  induction segs with
  | nil => rfl
  | cons s rest ih =>
      have hs2 : 2 ≤ s.length := h2 s (List.mem_cons_self s rest)
      have hsne : s ≠ [] := by intro h; rw [h] at hs2; exact absurd hs2 (by decide)
      have hrest2 : ∀ x ∈ rest, 2 ≤ x.length :=
        fun x hx => h2 x (List.mem_cons_of_mem s hx)
      cases rest with
      | nil => simp [appendSeg_nil]
      | cons r rest2 =>
          have hfoldne : (r :: rest2).foldl appendSeg [] ≠ [] := by
            rw [List.foldl_cons, appendSeg_nil]
            exact foldl_appendSeg_ne_nil rest2 r (by
              intro h
              have := hrest2 r (List.mem_cons_self r rest2)
              rw [h] at this
              exact absurd this (by decide))
          rw [List.map_cons, List.reverse_cons, List.foldl_append, ih hrest2]
          rw [List.foldl_cons, List.foldl_nil]
          rw [show (s :: r :: rest2).foldl appendSeg [] = (r :: rest2).foldl appendSeg s from by
            rw [List.foldl_cons, appendSeg_nil]]
          rw [foldl_appendSeg_from (r :: rest2) s hrest2,
            appendSeg_reverse hsne hfoldne]

/-! Arrangement predicates and the forced-walk lemma: on a chain or pure
cycle, the edge-chaining walk of `_merge_lines_graph` is forced at every
step, so its result can be described in closed form. -/

/-- An edge joins two nodes, in either stored orientation. -/
def Connects (e : Edge) (x y : Pt) : Prop :=
  (e.a = x ∧ e.b = y) ∨ (e.a = y ∧ e.b = x)

instance (e : Edge) (x y : Pt) : Decidable (Connects e x y) := by
  unfold Connects
  infer_instance

theorem otherEnd_eq {e : Edge} {x y : Pt} (h : Connects e x y) : otherEnd e x = y := by
  unfold otherEnd
  rcases h with ⟨h1, h2⟩ | ⟨h1, h2⟩
  · rw [if_pos h1]
    exact h2
  · by_cases hax : e.a = x
    · rw [if_pos hax, h2, ← hax]
      exact h1
    · rw [if_neg hax]
      exact h1

theorem connects_inc {e : Edge} {x y : Pt} (h : Connects e x y) :
    e.a = x ∨ e.b = x := by
  rcases h with ⟨h1, _⟩ | ⟨_, h2⟩
  · exact Or.inl h1
  · exact Or.inr h2

/-- The oriented segments of a full walk along an arrangement. -/
def walkSegs (edges : List Edge) (ps : List ℕ) (ns : List Pt) : List (List Pt) :=
  (List.range ps.length).map
    (fun k => orientSeg (edges.getD (ps.getD k 0) default) (ns.getD k default))

theorem length_orientSeg (e : Edge) (cur : Pt) :
    (orientSeg e cur).length = e.coords.length := by
  unfold orientSeg
  split_ifs <;> simp

theorem walkSegs_nil (edges : List Edge) (ns : List Pt) : walkSegs edges [] ns = [] := rfl

theorem walkSegs_cons (edges : List Edge) (p0 : ℕ) (ps : List ℕ) (n0 : Pt) (ns : List Pt) :
    walkSegs edges (p0 :: ps) (n0 :: ns) =
      orientSeg (edges.getD p0 default) n0 :: walkSegs edges ps ns := by
  unfold walkSegs
  rw [List.length_cons, List.range_succ_eq_map, List.map_cons, List.map_map]
  congr 1

theorem walkFrom_stop (edges : List Edge) (fuel : ℕ) (cur : Pt) (used : List Bool)
    (path : List Pt) (hfind : findUnused used (adj edges cur) = none) :
    walkFrom edges (fuel + 1) cur used path = (path, used) := by
  conv_lhs => unfold walkFrom
  rw [hfind]

theorem walkFrom_step (edges : List Edge) (fuel : ℕ) (cur : Pt) (used : List Bool)
    (path : List Pt) (p0 : ℕ) (hfind : findUnused used (adj edges cur) = some p0) :
    walkFrom edges (fuel + 1) cur used path =
      if deg edges (otherEnd (edges.getD p0 default) cur) ≠ 2 then
        (appendSeg path (orientSeg (edges.getD p0 default) cur), used.set p0 true)
      else walkFrom edges fuel (otherEnd (edges.getD p0 default) cur) (used.set p0 true)
        (appendSeg path (orientSeg (edges.getD p0 default) cur)) := by
  conv_lhs => unfold walkFrom
  rw [hfind]

/-- The forced-walk lemma.  If from the current state the walk is forced along
the steps `ps` through the node sequence `ns` (each step's edge is the unique
unconsumed edge at the current node, interior nodes have degree 2, and the
walk terminates at the final node either because its degree differs from 2 or
because every unconsumed edge there belongs to the walk itself), then
`walkFrom` consumes exactly `ps` and extends the path by the oriented
segments of the walk. -/
theorem walkFrom_run (edges : List Edge) (ps : List ℕ) :
    ∀ (ns : List Pt) (used : List Bool) (path : List Pt) (fuel : ℕ),
    used.length = edges.length →
    ns.length = ps.length + 1 →
    ps.Nodup →
    (∀ k, k < ps.length → ps.getD k 0 < edges.length) →
    (∀ k, k < ps.length → used.getD (ps.getD k 0) true = false) →
    (∀ k, k < ps.length →
      Connects (edges.getD (ps.getD k 0) default) (ns.getD k default)
        (ns.getD (k+1) default)) →
    (∀ k, k < ps.length → ∀ p, p < edges.length →
      used.getD p true = false →
      ((edges.getD p default).a = ns.getD k default ∨
        (edges.getD p default).b = ns.getD k default) →
      p ∈ ps.take (k+1)) →
    (∀ k, 1 ≤ k → k < ps.length → deg edges (ns.getD k default) = 2) →
    ((1 ≤ ps.length ∧ deg edges (ns.getD ps.length default) ≠ 2) ∨
      (∀ p, p < edges.length → used.getD p true = false →
        ((edges.getD p default).a = ns.getD ps.length default ∨
          (edges.getD p default).b = ns.getD ps.length default) →
        p ∈ ps)) →
    ps.length + 1 ≤ fuel →
    walkFrom edges fuel (ns.getD 0 default) used path =
      ((walkSegs edges ps ns).foldl appendSeg path, setTrues used ps) := by
  induction ps with
  | nil =>
      intro ns used path fuel hu hlen hnodup hbound hunused hconn hstep hdeg2 hstop hfuel
      obtain ⟨fuel2, rfl⟩ : ∃ f2, fuel = f2 + 1 := ⟨fuel - 1, by omega⟩
      rw [walkSegs_nil, List.foldl_nil, setTrues_nil]
      apply walkFrom_stop
      apply findUnused_eq_none
      intro i hi
      rw [mem_adj] at hi
      rcases hstop with ⟨h1, _⟩ | hstop2
      · exact absurd h1 (by simp)
      · cases hused : used.getD i true
        · exact absurd (hstop2 i hi.1 hused (by simpa using hi.2)) (List.not_mem_nil i)
        · rfl
  | cons p0 ps ih =>
      intro ns used path fuel hu hlen hnodup hbound hunused hconn hstep hdeg2 hstop hfuel
      obtain ⟨fuel2, rfl⟩ : ∃ f2, fuel = f2 + 1 := ⟨fuel - 1, by omega⟩
      obtain ⟨n0, ns', rfl⟩ : ∃ n0 ns', ns = n0 :: ns' := by
        cases ns with
        | nil => simp at hlen
        | cons a t => exact ⟨a, t, rfl⟩
      have hp0lt : p0 < edges.length := by
        have := hbound 0 (by simp)
        simpa using this
      have hp0un : used.getD p0 true = false := by
        have := hunused 0 (by simp)
        simpa using this
      have hconn0 : Connects (edges.getD p0 default) n0 (ns'.getD 0 default) := by
        have := hconn 0 (by simp)
        simpa using this
      have hfind : findUnused used (adj edges n0) = some p0 := by
        apply findUnused_eq_some
        · rw [mem_adj]
          exact ⟨hp0lt, connects_inc hconn0⟩
        · exact hp0un
        · intro y hy hyun
          rw [mem_adj] at hy
          have hmem := hstep 0 (by simp) y hy.1 hyun (by simpa using hy.2)
          simpa using hmem
      rw [show ((n0 :: ns').getD 0 default : Pt) = n0 from rfl,
        walkFrom_step edges fuel2 n0 used path p0 hfind, otherEnd_eq hconn0]
      have hlen' : ns'.length = ps.length + 1 := by simpa using hlen
      by_cases hdeg : deg edges (ns'.getD 0 default) ≠ 2
      · have hps : ps = [] := by
          cases ps with
          | nil => rfl
          | cons p1 ps2 =>
              have := hdeg2 1 (by omega) (by simp)
              exact absurd (by simpa using this) hdeg
        subst hps
        rw [if_pos hdeg, walkSegs_cons, walkSegs_nil, List.foldl_cons, List.foldl_nil,
          setTrues_cons, setTrues_nil]
      · rw [if_neg hdeg, walkSegs_cons, List.foldl_cons, setTrues_cons]
        have hnodup' := (List.nodup_cons.mp hnodup).2
        have hp0nmem := (List.nodup_cons.mp hnodup).1
        apply ih ns' (used.set p0 true) _ fuel2
        · rw [List.length_set]
          exact hu
        · exact hlen'
        · exact hnodup'
        · intro k hk
          have := hbound (k+1) (by simpa using Nat.succ_lt_succ hk)
          simpa using this
        · intro k hk
          have hmem : ps.getD k 0 ∈ ps := by
            rw [List.getD_eq_getElem _ _ (by simpa using hk)]
            exact List.getElem_mem _
          rw [getD_set_bool]
          rw [if_neg (by
            intro hcon
            rw [hcon.1] at hmem
            exact hp0nmem hmem)]
          have := hunused (k+1) (by simpa using Nat.succ_lt_succ hk)
          simpa using this
        · intro k hk
          have := hconn (k+1) (by simpa using Nat.succ_lt_succ hk)
          simpa using this
        · intro k hk p hplt hpun hinc
          have hpun0 : used.getD p true = false := by
            rw [getD_set_bool] at hpun
            by_cases hpp0 : p = p0 ∧ p0 < used.length
            · rw [if_pos hpp0] at hpun
              exact absurd hpun (by simp)
            · rw [if_neg hpp0] at hpun
              exact hpun
          have hpne : p ≠ p0 := by
            intro hcon
            rw [getD_set_bool, if_pos ⟨hcon, by omega⟩] at hpun
            exact absurd hpun (by simp)
          have hmem := hstep (k+1) (by simpa using Nat.succ_lt_succ hk) p hplt hpun0
            (by simpa using hinc)
          rw [List.take_succ_cons, List.mem_cons] at hmem
          rcases hmem with hcon | hmem2
          · exact absurd hcon hpne
          · exact hmem2
        · intro k h1k hk
          have := hdeg2 (k+1) (by omega) (by simpa using Nat.succ_lt_succ hk)
          simpa using this
        · rcases hstop with ⟨hge, hd⟩ | hstop2
          · cases ps with
            | nil =>
                exfalso
                apply hd
                push_neg at hdeg
                rw [show ([p0].length : ℕ) = 1 from rfl, List.getD_cons_succ]
                exact hdeg
            | cons p1 ps2 =>
                left
                exact ⟨by simp, by simpa using hd⟩
          · right
            intro p hplt hpun hinc
            have hpun0 : used.getD p true = false := by
              rw [getD_set_bool] at hpun
              by_cases hpp0 : p = p0 ∧ p0 < used.length
              · rw [if_pos hpp0] at hpun
                exact absurd hpun (by simp)
              · rw [if_neg hpp0] at hpun
                exact hpun
            have hpne : p ≠ p0 := by
              intro hcon
              rw [getD_set_bool, if_pos ⟨hcon, by omega⟩] at hpun
              exact absurd hpun (by simp)
            have hmem := hstop2 p hplt hpun0 (by
              have : ns'.getD ps.length default = (n0 :: ns').getD (p0 :: ps).length default := by
                simp
              rw [this] at hinc
              exact hinc)
            rcases List.mem_cons.mp hmem with hcon | hmem2
            · exact absurd hcon hpne
            · exact hmem2
        · simp only [List.length_cons] at hfuel
          omega

/-! Counting incidences and transporting degrees along permutations. -/

theorem listSum_range (f : ℕ → ℕ) (m : ℕ) :
    ((List.range m).map f).sum = ∑ k in Finset.range m, f k := by
  induction m with
  | zero => rfl
  | succ m ih =>
      rw [List.range_succ, List.map_append, List.sum_append, Finset.sum_range_succ, ih]
      simp

theorem sum_map_eq_range_sum {α : Type} [Inhabited α] (l : List α) (g : α → ℕ) :
    (l.map g).sum = ∑ k in Finset.range l.length, g (l.getD k default) := by
  conv_lhs => rw [← map_getD_range l]
  rw [List.map_map, listSum_range]
  rfl

theorem connects_symm {e : Edge} {x y : Pt} (h : Connects e x y) : Connects e y x := by
  rcases h with h | h
  · exact Or.inr h
  · exact Or.inl h

theorem incCount_of_connects {e : Edge} {x y : Pt} (n : Pt) (h : Connects e x y) :
    incCount n e = (if x = n then 1 else 0) + (if y = n then 1 else 0) := by
  unfold incCount
  rcases h with ⟨h1, h2⟩ | ⟨h1, h2⟩
  · rw [h1, h2]
  · rw [h1, h2, Nat.add_comm]

theorem nodup_getD_inj {l : List Pt} (h : l.Nodup) {i j : ℕ}
    (hi : i < l.length) (hj : j < l.length) :
    l.getD i default = l.getD j default ↔ i = j := by
  rw [List.getD_eq_getElem _ _ (by simpa using hi), List.getD_eq_getElem _ _ (by simpa using hj)]
  exact h.getElem_inj_iff

theorem deg_of_perm {edges ce : List Edge} (h : List.Perm edges ce) (n : Pt) :
    deg edges n = (ce.map (incCount n)).sum := by
  rw [deg_eq_sum]
  exact (h.map (incCount n)).sum_eq

theorem getD_replicate_true (n p : ℕ) :
    (List.replicate n true).getD p true = true := by
  rcases Nat.lt_or_ge p n with h | h
  · rw [List.getD_eq_getElem _ _ (by simpa using h), List.getElem_replicate]
  · rw [List.getD_eq_default _ _ (by simpa using h)]

theorem setTrues_all (n : ℕ) (ps : List ℕ)
    (hperm : List.Perm ps (List.range n)) (u : List Bool) (hu : u.length = n) :
    setTrues u ps = List.replicate n true := by
  apply List.ext_getElem
  · rw [length_setTrues, hu, List.length_replicate]
  · intro i h1 h2
    have hin : i < n := by simpa using h2
    have hmem : i ∈ ps := hperm.mem_iff.mpr (by simpa using hin)
    have := getD_setTrues ps u i
    rw [if_pos ⟨hmem, by omega⟩] at this
    rw [← List.getD_eq_getElem (setTrues u ps) true (by simpa using h1), this,
      List.getElem_replicate]

theorem mem_firstDedup : ∀ (l : List Pt) (x : Pt), x ∈ firstDedup l ↔ x ∈ l
  | [] => by intro x; rw [firstDedup]
  | y :: ys => by
      intro x
      rw [firstDedup]
      constructor
      · intro h
        rcases List.mem_cons.mp h with rfl | h2
        · exact List.mem_cons_self x ys
        · have := (mem_firstDedup (ys.filter (fun z => decide (z ≠ y))) x).mp h2
          rw [List.mem_filter] at this
          exact List.mem_cons_of_mem y this.1
      · intro h
        rcases List.mem_cons.mp h with rfl | h2
        · exact List.mem_cons_self x _
        · by_cases hxy : x = y
          · rw [hxy]; exact List.mem_cons_self y _
          · refine List.mem_cons_of_mem y ?_
            refine (mem_firstDedup (ys.filter (fun z => decide (z ≠ y))) x).mpr ?_
            rw [List.mem_filter]
            exact ⟨h2, by simpa using hxy⟩
termination_by l => l.length
decreasing_by
  all_goals
    simp only [List.length_cons]
    exact Nat.lt_succ_of_le (List.length_filter_le _ _)

theorem mem_nodeOrder (edges : List Edge) (n : Pt) :
    n ∈ nodeOrder edges ↔ ∃ e ∈ edges, e.a = n ∨ e.b = n := by
  unfold nodeOrder
  rw [mem_firstDedup, List.mem_flatten]
  constructor
  · rintro ⟨l, hl, hn⟩
    rw [List.mem_map] at hl
    obtain ⟨e, he, rfl⟩ := hl
    rcases List.mem_cons.mp hn with rfl | hn2
    · exact ⟨e, he, Or.inl rfl⟩
    · rcases List.mem_singleton.mp hn2 with rfl
      exact ⟨e, he, Or.inr rfl⟩
  · rintro ⟨e, he, hab⟩
    refine ⟨[e.a, e.b], List.mem_map.mpr ⟨e, he, rfl⟩, ?_⟩
    rcases hab with h | h
    · rw [h]; exact List.mem_cons_self n [e.b]
    · rw [h]; exact List.mem_cons_of_mem e.a (List.mem_singleton.mpr rfl)

theorem getD_mem_take {ps : List ℕ} {j k : ℕ} (hj : j < k) (hlen : j < ps.length) :
    ps.getD j 0 ∈ ps.take k := by
  have hlen2 : j < (ps.take k).length := by
    rw [List.length_take]
    omega
  have : (ps.take k).getD j 0 = ps.getD j 0 := by
    rw [List.getD_eq_getElem _ _ (by simpa using hlen2),
      List.getD_eq_getElem _ _ (by simpa using hlen), List.getElem_take]
  rw [← this, List.getD_eq_getElem _ _ (by simpa using hlen2)]
  exact List.getElem_mem _

theorem mem_getD_exists {α : Type} [Inhabited α] {l : List α} {x : α} (h : x ∈ l) :
    ∃ i, i < l.length ∧ l.getD i default = x := by
  obtain ⟨i, hi⟩ := List.get_of_mem h
  exact ⟨i.1, i.2, by rw [List.getD_eq_getElem _ _ i.2]; exact hi⟩

theorem orientSeg_flip {e : Edge} {x y : Pt} (h : Connects e x y) (hxy : x ≠ y) :
    orientSeg e y = (orientSeg e x).reverse := by
  unfold orientSeg
  rcases h with ⟨h1, h2⟩ | ⟨h1, h2⟩
  · rw [if_neg (show ¬ e.a = y from by rw [h1]; exact fun hcon => hxy hcon), if_pos h1]
  · rw [if_pos h1,
      if_neg (show ¬ e.a = x from by rw [h1]; exact fun hcon => hxy hcon.symm),
      List.reverse_reverse]

theorem getD_reverse {α : Type} [Inhabited α] (l : List α) (i : ℕ) (h : i < l.length) :
    l.reverse.getD i default = l.getD (l.length - 1 - i) default := by
  rw [List.getD_eq_getElem _ _ (by simpa using h),
    List.getD_eq_getElem _ _ (by simpa [Nat.sub_lt_iff_lt_add] using by omega : l.length - 1 - i < l.length),
    List.getElem_reverse]

theorem phase1Node_noop (edges : List Edge) (fuel : ℕ) (node : Pt) (used : List Bool)
    (acc : List (List Pt))
    (h : ∀ i ∈ adj edges node, used.getD i true = true) :
    phase1Node edges fuel node used acc = (acc, used) := by
  cases fuel with
  | zero => rfl
  | succ f =>
      conv_lhs => unfold phase1Node
      rw [if_neg]
      intro hcon
      rw [List.any_eq_true] at hcon
      obtain ⟨i, hi, hbad⟩ := hcon
      rw [h i hi] at hbad
      exact absurd hbad (by simp)

theorem phase2Go_noop (edges : List Edge) (l : List ℕ) (acc : List (List Pt)) (n : ℕ)
    (_hn : edges.length ≤ n) :
    phase2Go edges l (List.replicate n true) acc = (acc, List.replicate n true) := by
  induction l generalizing acc with
  | nil => rfl
  | cons ei rest ih =>
      conv_lhs => unfold phase2Go
      rw [getD_replicate_true]
      exact ih acc

/-! Open-chain arrangements. -/

/-- The walk positions ps enumerate all edges so that consecutive edges meet
at the pairwise-distinct nodes ns: the edge multiset forms one open chain. -/
def ChainPos (edges : List Edge) (ps : List ℕ) (ns : List Pt) : Prop :=
  1 ≤ ps.length ∧
  List.Perm ps (List.range edges.length) ∧
  ns.length = ps.length + 1 ∧
  ns.Nodup ∧
  ∀ k < ps.length, Connects (edges.getD (ps.getD k 0) default)
    (ns.getD k default) (ns.getD (k+1) default)

instance (edges : List Edge) (ps : List ℕ) (ns : List Pt) :
    Decidable (ChainPos edges ps ns) := by
  unfold ChainPos
  infer_instance

theorem mem_endpointsOf {tol : ℚ} {lines : List (List Pt)} {e : Edge}
    (he : e ∈ endpointsOf tol lines) : 2 ≤ e.coords.length := by
  unfold endpointsOf at he
  rw [List.mem_filterMap] at he
  obtain ⟨c, _, hsome⟩ := he
  split_ifs at hsome with h2
  · injection hsome with h
    rw [← h]
    exact h2

theorem chainPos_length {edges : List Edge} {ps : List ℕ} {ns : List Pt}
    (h : ChainPos edges ps ns) : ps.length = edges.length := by
  have := h.2.1.length_eq
  simpa using this

theorem deg_by_positions (edges : List Edge) (ps : List ℕ)
    (hperm : List.Perm ps (List.range edges.length)) (n : Pt) :
    deg edges n = ∑ k in Finset.range ps.length,
      incCount n (edges.getD (ps.getD k 0) default) := by
  have hmap : List.Perm (ps.map (fun p => edges.getD p default))
      ((List.range edges.length).map (fun p => edges.getD p default)) :=
    hperm.map _
  rw [map_getD_range] at hmap
  rw [deg_of_perm hmap.symm n, List.map_map, sum_map_eq_range_sum]
  rfl

theorem chainPos_deg {edges : List Edge} {ps : List ℕ} {ns : List Pt}
    (h : ChainPos edges ps ns) (i : ℕ) (hi : i ≤ ps.length) :
    deg edges (ns.getD i default) =
      (if i < ps.length then 1 else 0) + (if 1 ≤ i then 1 else 0) := by
  obtain ⟨hM, hperm, hlen, hnodup, hconn⟩ := h
  rw [deg_by_positions edges ps hperm]
  have hterm : ∀ k ∈ Finset.range ps.length,
      incCount (ns.getD i default) (edges.getD (ps.getD k 0) default) =
        (if k = i then 1 else 0) + (if k + 1 = i then 1 else 0) := by
    intro k hk
    rw [Finset.mem_range] at hk
    rw [incCount_of_connects (ns.getD i default) (hconn k hk)]
    congr 1
    · by_cases hki : k = i
      · rw [if_pos ((nodup_getD_inj hnodup (by omega) (by omega)).mpr hki), if_pos hki]
      · rw [if_neg (fun hcon =>
          hki ((nodup_getD_inj hnodup (by omega) (by omega)).mp hcon)), if_neg hki]
    · by_cases hki : k + 1 = i
      · rw [if_pos ((nodup_getD_inj hnodup (by omega) (by omega)).mpr hki), if_pos hki]
      · rw [if_neg (fun hcon =>
          hki ((nodup_getD_inj hnodup (by omega) (by omega)).mp hcon)), if_neg hki]
  rw [Finset.sum_congr rfl hterm, Finset.sum_add_distrib]
  congr 1
  · rw [Finset.sum_ite_eq' (Finset.range ps.length) i (fun _ => 1)]
    by_cases hilt : i < ps.length
    · rw [if_pos (Finset.mem_range.mpr hilt), if_pos hilt]
    · rw [if_neg (fun hcon => hilt (Finset.mem_range.mp hcon)), if_neg hilt]
  · cases i with
    | zero =>
        rw [Finset.sum_eq_zero (fun k _ => by rw [if_neg (by omega)])]
        rfl
    | succ j =>
        have hterm2 : ∀ k ∈ Finset.range ps.length,
            (if k + 1 = j + 1 then (1 : ℕ) else 0) = if k = j then 1 else 0 := by
          intro k _
          by_cases hkj : k = j
          · rw [if_pos (by omega), if_pos hkj]
          · rw [if_neg (by omega), if_neg hkj]
        rw [Finset.sum_congr rfl hterm2,
          Finset.sum_ite_eq' (Finset.range ps.length) j (fun _ => 1),
          if_pos (Finset.mem_range.mpr (by omega))]
        rw [if_pos (by omega)]

theorem chainPos_reverse {edges : List Edge} {ps : List ℕ} {ns : List Pt}
    (h : ChainPos edges ps ns) : ChainPos edges ps.reverse ns.reverse := by
  obtain ⟨hM, hperm, hlen, hnodup, hconn⟩ := h
  refine ⟨by simpa using hM, (List.reverse_perm ps).trans hperm, by simpa using hlen,
    by simpa using hnodup, ?_⟩
  intro k hk
  rw [List.length_reverse] at hk
  have hps : ps.reverse.getD k 0 = ps.getD (ps.length - 1 - k) 0 := by
    have := getD_reverse ps k (by omega)
    simpa using this
  have hns1 : ns.reverse.getD k default = ns.getD (ps.length - k) default := by
    have := getD_reverse ns k (by omega)
    rw [this]
    congr 1
    omega
  have hns2 : ns.reverse.getD (k+1) default = ns.getD (ps.length - 1 - k) default := by
    have := getD_reverse ns (k+1) (by omega)
    rw [this]
    congr 1
    omega
  rw [hps, hns1, hns2]
  have hc := connects_symm (hconn (ps.length - 1 - k) (by omega))
  rw [show ps.length - 1 - k + 1 = ps.length - k from by omega] at hc
  exact hc

theorem chainPos_incident {edges : List Edge} {ps : List ℕ} {ns : List Pt}
    (h : ChainPos edges ps ns) (i : ℕ) (hi : i ≤ ps.length)
    (p : ℕ) (hp : p < edges.length)
    (hinc : (edges.getD p default).a = ns.getD i default ∨
      (edges.getD p default).b = ns.getD i default) :
    ∃ j, j < ps.length ∧ ps.getD j 0 = p ∧ (j = i ∨ j + 1 = i) := by
  obtain ⟨hM, hperm, hlen, hnodup, hconn⟩ := h
  have hpmem : p ∈ ps := hperm.mem_iff.mpr (by simpa using hp)
  obtain ⟨j, hj, hgd⟩ := mem_getD_exists hpmem
  refine ⟨j, hj, hgd, ?_⟩
  have hcj := hconn j hj
  rw [show (ps.getD j 0 : ℕ) = ps.getD j default from rfl, hgd] at hcj
  have hinj : ∀ a b : ℕ, a < ns.length → b < ns.length →
      ns.getD a default = ns.getD b default → a = b := by
    intro a b ha hb hab
    exact (nodup_getD_inj hnodup ha hb).mp hab
  rcases hcj with ⟨ha, hb⟩ | ⟨ha, hb⟩ <;> rcases hinc with hx | hx
  · left; exact hinj j i (by omega) (by omega) (by rw [← ha, hx])
  · right; exact hinj (j+1) i (by omega) (by omega) (by rw [← hb, hx])
  · right; exact hinj (j+1) i (by omega) (by omega) (by rw [← ha, hx])
  · left; exact hinj j i (by omega) (by omega) (by rw [← hb, hx])

theorem length_walkSegs (edges : List Edge) (ps : List ℕ) (ns : List Pt) :
    (walkSegs edges ps ns).length = ps.length := by
  unfold walkSegs
  simp

theorem getElem_walkSegs (edges : List Edge) (ps : List ℕ) (ns : List Pt) (k : ℕ)
    (hk : k < (walkSegs edges ps ns).length) :
    (walkSegs edges ps ns).get ⟨k, hk⟩ =
      orientSeg (edges.getD (ps.getD k 0) default) (ns.getD k default) := by
  unfold walkSegs
  simp

theorem mem_walkSegs_two_le {edges : List Edge} {ps : List ℕ} {ns : List Pt}
    (hcoords : ∀ e ∈ edges, 2 ≤ e.coords.length)
    (hbound : ∀ k < ps.length, ps.getD k 0 < edges.length) :
    ∀ s ∈ walkSegs edges ps ns, 2 ≤ s.length := by
  intro s hs
  unfold walkSegs at hs
  rw [List.mem_map] at hs
  obtain ⟨k, hk, rfl⟩ := hs
  rw [List.mem_range] at hk
  rw [length_orientSeg]
  apply hcoords
  rw [List.getD_eq_getElem _ _ (by simpa using hbound k hk)]
  exact List.getElem_mem _

theorem headI_walkSegs (edges : List Edge) (ps : List ℕ) (ns : List Pt)
    (hM : 1 ≤ ps.length) :
    (walkSegs edges ps ns).headI =
      orientSeg (edges.getD (ps.getD 0 0) default) (ns.getD 0 default) := by
  obtain ⟨m, hm⟩ : ∃ m, ps.length = m + 1 := ⟨ps.length - 1, by omega⟩
  unfold walkSegs
  rw [hm, List.range_succ_eq_map, List.map_cons]
  rfl

theorem getLastI_walkSegs (edges : List Edge) (ps : List ℕ) (ns : List Pt)
    (hM : 1 ≤ ps.length) :
    (walkSegs edges ps ns).getLastI =
      orientSeg (edges.getD (ps.getD (ps.length - 1) 0) default)
        (ns.getD (ps.length - 1) default) := by
  obtain ⟨m, hm⟩ : ∃ m, ps.length = m + 1 := ⟨ps.length - 1, by omega⟩
  unfold walkSegs
  rw [hm, List.range_succ, List.map_append, List.map_cons, List.map_nil]
  rw [List.getLastI_eq_getLast?, List.getLast?_append_of_ne_nil _ (by simp)]
  simp

theorem two_le_chainFold {edges : List Edge} {ps : List ℕ} {ns : List Pt}
    (hM : 1 ≤ ps.length)
    (hcoords : ∀ e ∈ edges, 2 ≤ e.coords.length)
    (hbound : ∀ k < ps.length, ps.getD k 0 < edges.length) :
    2 ≤ ((walkSegs edges ps ns).foldl appendSeg []).length := by
  have hlen : (walkSegs edges ps ns).length = ps.length := length_walkSegs edges ps ns
  cases hws : walkSegs edges ps ns with
  | nil => rw [hws] at hlen; simp at hlen; omega
  | cons w0 rest =>
      rw [List.foldl_cons, appendSeg_nil]
      apply two_le_foldl_appendSeg
      have : w0 ∈ walkSegs edges ps ns := by rw [hws]; exact List.mem_cons_self w0 rest
      exact mem_walkSegs_two_le hcoords hbound w0 this

theorem phase1Node_step (edges : List Edge) (f : ℕ) (node : Pt) (used : List Bool)
    (acc : List (List Pt))
    (hcond : (adj edges node).any (fun ei => !(used.getD ei true)) = true) :
    phase1Node edges (f + 1) node used acc =
      phase1Node edges f node (walkFrom edges (edges.length + 1) node used []).2
        (if 2 ≤ (walkFrom edges (edges.length + 1) node used []).1.length
         then acc ++ [(walkFrom edges (edges.length + 1) node used []).1] else acc) := by
  conv_lhs => unfold phase1Node
  rw [if_pos hcond]

/-- Running the phase-1 while loop at the start node of a chain arrangement
from the all-unconsumed state: exactly one `build_path` walk runs, consuming
every edge and producing the concatenated chain path. -/
theorem phase1Node_chain_run {edges : List Edge} {ps : List ℕ} {ns : List Pt}
    (h : ChainPos edges ps ns)
    (hcoords : ∀ e ∈ edges, 2 ≤ e.coords.length)
    (fuel : ℕ) (hfuel : 2 ≤ fuel) (acc : List (List Pt)) :
    phase1Node edges fuel (ns.getD 0 default) (List.replicate edges.length false) acc =
      (acc ++ [(walkSegs edges ps ns).foldl appendSeg []],
       List.replicate edges.length true) := by
  have hME : ps.length = edges.length := chainPos_length h
  obtain ⟨hM, hperm, hlen, hnodup, hconn⟩ := h
  have hbound : ∀ k < ps.length, ps.getD k 0 < edges.length := by
    intro k hk
    have hmem : ps.getD k 0 ∈ ps := by
      rw [List.getD_eq_getElem _ _ (by simpa using hk)]
      exact List.getElem_mem _
    have := hperm.mem_iff.mp hmem
    simpa using this
  obtain ⟨f2, rfl⟩ : ∃ f2, fuel = f2 + 1 := ⟨fuel - 1, by omega⟩
  have hp00 : ps.getD 0 0 < edges.length := hbound 0 (by omega)
  have hcond : (adj edges (ns.getD 0 default)).any
      (fun ei => !((List.replicate edges.length false).getD ei true)) = true := by
    rw [List.any_eq_true]
    refine ⟨ps.getD 0 0, ?_, ?_⟩
    · rw [mem_adj]
      exact ⟨hp00, connects_inc (hconn 0 (by omega))⟩
    · rw [getD_replicate_false, if_pos hp00]
      rfl
  rw [phase1Node_step edges f2 _ _ acc hcond]
  have hrun := walkFrom_run edges ps ns (List.replicate edges.length false) []
    (edges.length + 1)
    (by simp)
    hlen
    ((hperm.nodup_iff).mpr (List.nodup_range _))
    hbound
    (fun k hk => by rw [getD_replicate_false, if_pos (hbound k hk)])
    hconn
    (fun k hk p hp hpun hpinc => by
      obtain ⟨j, hj, hgd, hji⟩ := chainPos_incident
        ⟨hM, hperm, hlen, hnodup, hconn⟩ k (by omega) p hp hpinc
      rw [← hgd]
      exact getD_mem_take (by omega) hj)
    (fun k h1k hk => by
      rw [chainPos_deg ⟨hM, hperm, hlen, hnodup, hconn⟩ k (by omega),
        if_pos hk, if_pos h1k])
    (Or.inl ⟨hM, by
      rw [chainPos_deg ⟨hM, hperm, hlen, hnodup, hconn⟩ ps.length (by omega),
        if_neg (by omega), if_pos (by omega)]
      decide⟩)
    (by omega)
  rw [hrun]
  have hall : setTrues (List.replicate edges.length false) ps =
      List.replicate edges.length true :=
    setTrues_all edges.length ps hperm _ (by simp)
  rw [hall]
  have h2P : 2 ≤ ((walkSegs edges ps ns).foldl appendSeg []).length :=
    two_le_chainFold hM hcoords hbound
  rw [if_pos h2P]
  apply phase1Node_noop
  intro i hi
  rw [mem_adj] at hi
  exact getD_replicate_true _ _

/-- getD through map, for indices in range. -/
theorem getD_map_of_lt {α β : Type} [Inhabited α] [Inhabited β] (f : α → β) (l : List α)
    (k : ℕ) (hk : k < l.length) :
    (l.map f).getD k default = f (l.getD k default) := by
  rw [List.getD_eq_getElem _ _ (by simpa using hk),
    List.getD_eq_getElem _ _ (by simpa using hk), List.getElem_map]

theorem getD_walkSegs (edges : List Edge) (ps : List ℕ) (ns : List Pt) (k : ℕ)
    (hk : k < ps.length) :
    (walkSegs edges ps ns).getD k default =
      orientSeg (edges.getD (ps.getD k 0) default) (ns.getD k default) := by
  have h1 : k < (walkSegs edges ps ns).length := by rw [length_walkSegs]; exact hk
  rw [List.getD_eq_getElem _ _ (by simpa using h1)]
  have := getElem_walkSegs edges ps ns k h1
  exact this

theorem get_eq_getD {α : Type} [Inhabited α] (l : List α) (i : ℕ) (hi : i < l.length) :
    l.get ⟨i, hi⟩ = l.getD i default :=
  (List.getD_eq_getElem l default hi).symm

/-- The oriented segments of the reversed chain arrangement are the reversed
segments in reverse order. -/
theorem walkSegs_reverse_arr {edges : List Edge} {ps : List ℕ} {ns : List Pt}
    (h : ChainPos edges ps ns) :
    walkSegs edges ps.reverse ns.reverse =
      ((walkSegs edges ps ns).map List.reverse).reverse := by
  obtain ⟨hM, hperm, hlen, hnodup, hconn⟩ := h
  apply List.ext_get
  · simp [length_walkSegs]
  · intro k h1 h2
    have hk : k < ps.length := by
      rw [length_walkSegs, List.length_reverse] at h1
      exact h1
    rw [get_eq_getD, get_eq_getD]
    rw [getD_walkSegs edges ps.reverse ns.reverse k (by simpa using hk)]
    have hps : ps.reverse.getD k 0 = ps.getD (ps.length - 1 - k) 0 := by
      have := getD_reverse ps k (by omega)
      simpa using this
    have hns : ns.reverse.getD k default = ns.getD (ps.length - k) default := by
      have := getD_reverse ns k (by omega)
      rw [this]
      congr 1
      omega
    rw [hps, hns]
    rw [getD_reverse ((walkSegs edges ps ns).map List.reverse) k
      (by rw [List.length_map, length_walkSegs]; omega)]
    rw [show ((walkSegs edges ps ns).map List.reverse).length - 1 - k =
        ps.length - 1 - k from by rw [List.length_map, length_walkSegs]]
    rw [getD_map_of_lt List.reverse _ _ (by rw [length_walkSegs]; omega)]
    rw [getD_walkSegs edges ps ns (ps.length - 1 - k) (by omega)]
    have hc := hconn (ps.length - 1 - k) (by omega)
    rw [show ps.length - 1 - k + 1 = ps.length - k from by omega] at hc
    apply orientSeg_flip hc
    intro hcon
    have := (nodup_getD_inj hnodup
      (by omega : ps.length - 1 - k < ns.length)
      (by omega : ps.length - k < ns.length)).mp hcon
    omega

theorem dropWhile_head_false {q : Pt → Bool} :
    ∀ (l : List Pt) {nd : Pt} {R : List Pt}, l.dropWhile q = nd :: R → q nd = false := by
  intro l
  induction l with
  | nil =>
      intro nd R h
      exact absurd h (by simp)
  | cons a t ih =>
      intro nd R h
      rw [List.dropWhile_cons] at h
      by_cases hqa : q a = true
      · rw [if_pos hqa] at h
        exact ih h
      · rw [if_neg hqa] at h
        injection h with h1 _
        rw [← h1]
        cases hb : q a
        · rfl
        · exact absurd hb hqa

theorem p1fold_skip (edges : List Edge) (T : List Pt)
    (st : List (List Pt) × List Bool) (h : ∀ x ∈ T, deg edges x = 2) :
    T.foldl (fun st node =>
      if deg edges node ≠ 2 then phase1Node edges (edges.length + 1) node st.2 st.1
      else st) st = st := by
  induction T generalizing st with
  | nil => rfl
  | cons a t ih =>
      rw [List.foldl_cons, if_neg (by
        rw [h a (List.mem_cons_self a t)]
        simp)]
      exact ih st (fun x hx => h x (List.mem_cons_of_mem a hx))

theorem p1fold_allTrue (edges : List Edge) (R : List Pt) (acc : List (List Pt)) :
    R.foldl (fun st node =>
      if deg edges node ≠ 2 then phase1Node edges (edges.length + 1) node st.2 st.1
      else st) (acc, List.replicate edges.length true) =
      (acc, List.replicate edges.length true) := by
  induction R generalizing acc with
  | nil => rfl
  | cons a t ih =>
      rw [List.foldl_cons]
      by_cases hdeg : deg edges a ≠ 2
      · rw [if_pos hdeg]
        rw [show phase1Node edges (edges.length + 1) a
            ((acc, List.replicate edges.length true)).2
            ((acc, List.replicate edges.length true)).1 =
            (acc, List.replicate edges.length true) from
          phase1Node_noop _ _ _ _ _ (fun i _ => getD_replicate_true _ _)]
        exact ih acc
      · rw [if_neg hdeg]
        exact ih acc

/-- Phase 1 on a single open chain: exactly one chain path is reconstructed,
walked from whichever of the two chain ends appears first in node insertion
order, and every edge ends up consumed. -/
theorem phase1_chain {edges : List Edge} {ps : List ℕ} {ns : List Pt}
    (h : ChainPos edges ps ns)
    (hcoords : ∀ e ∈ edges, 2 ≤ e.coords.length) :
    phase1 edges (List.replicate edges.length false) =
      ([(walkSegs edges ps ns).foldl appendSeg []], List.replicate edges.length true) ∨
    phase1 edges (List.replicate edges.length false) =
      ([((walkSegs edges ps ns).foldl appendSeg []).reverse],
        List.replicate edges.length true) := by
  have hME : ps.length = edges.length := chainPos_length h
  obtain ⟨hM, hperm, hlen, hnodup, hconn⟩ := h
  have h' : ChainPos edges ps ns := ⟨hM, hperm, hlen, hnodup, hconn⟩
  have hbound : ∀ k < ps.length, ps.getD k 0 < edges.length := by
    intro k hk
    have hmem : ps.getD k 0 ∈ ps := by
      rw [List.getD_eq_getElem _ _ (by simpa using hk)]
      exact List.getElem_mem _
    have := hperm.mem_iff.mp hmem
    simpa using this
  have he0 : edges.getD (ps.getD 0 0) default ∈ edges := by
    rw [List.getD_eq_getElem _ _ (by simpa using hbound 0 (by omega))]
    exact List.getElem_mem _
  have hE0mem : ns.getD 0 default ∈ nodeOrder edges :=
    (mem_nodeOrder edges _).mpr ⟨_, he0, connects_inc (hconn 0 (by omega))⟩
  have hdegE0 : deg edges (ns.getD 0 default) = 1 := by
    rw [chainPos_deg h' 0 (by omega), if_pos (by omega), if_neg (by omega)]
  have hdropne : (nodeOrder edges).dropWhile (fun x => decide (deg edges x = 2)) ≠ [] := by
    rw [ne_eq, List.dropWhile_eq_nil_iff]
    push_neg
    refine ⟨ns.getD 0 default, hE0mem, ?_⟩
    rw [hdegE0]
    simp
  obtain ⟨nd, R, hdrop⟩ : ∃ nd R,
      (nodeOrder edges).dropWhile (fun x => decide (deg edges x = 2)) = nd :: R := by
    cases hcase : (nodeOrder edges).dropWhile (fun x => decide (deg edges x = 2)) with
    | nil => exact absurd hcase hdropne
    | cons a t => exact ⟨a, t, rfl⟩
  have hndq : deg edges nd ≠ 2 := by
    have := dropWhile_head_false _ hdrop
    simpa using this
  have hsp : nodeOrder edges =
      (nodeOrder edges).takeWhile (fun x => decide (deg edges x = 2)) ++ nd :: R := by
    conv_lhs => rw [← List.takeWhile_append_dropWhile
      (fun x => decide (deg edges x = 2)) (nodeOrder edges)]
    rw [hdrop]
  have hndmem : nd ∈ nodeOrder edges := by
    rw [hsp]
    exact List.mem_append.mpr (Or.inr (List.mem_cons_self nd R))
  have hndval : ∃ i, i ≤ ps.length ∧ nd = ns.getD i default := by
    rcases (mem_nodeOrder edges nd).mp hndmem with ⟨e, he, hab⟩
    obtain ⟨p, hp, hpe⟩ := mem_getD_exists he
    have hpmem : p ∈ ps := hperm.mem_iff.mpr (by simpa using hp)
    obtain ⟨j, hj, hgd⟩ := mem_getD_exists hpmem
    have hcj := hconn j hj
    rw [show (ps.getD j 0 : ℕ) = ps.getD j default from rfl, hgd, hpe] at hcj
    rcases hcj with ⟨ha, hb⟩ | ⟨ha, hb⟩ <;> rcases hab with hx | hx
    · exact ⟨j, by omega, by rw [← hx, ha]⟩
    · exact ⟨j + 1, by omega, by rw [← hx, hb]⟩
    · exact ⟨j + 1, by omega, by rw [← hx, ha]⟩
    · exact ⟨j, by omega, by rw [← hx, hb]⟩
  obtain ⟨i, hile, hndval⟩ := hndval
  have hi0M : i = 0 ∨ i = ps.length := by
    by_contra hcon
    push_neg at hcon
    apply hndq
    rw [hndval, chainPos_deg h' i hile, if_pos (by omega), if_pos (by omega)]
  unfold phase1
  rw [hsp, List.foldl_append,
    p1fold_skip edges ((nodeOrder edges).takeWhile (fun x => decide (deg edges x = 2)))
      ([], List.replicate edges.length false) (fun x hx => by
        have := List.mem_takeWhile_imp hx
        simpa using this)]
  rw [List.foldl_cons, if_pos hndq]
  rcases hi0M with rfl | hiM
  · left
    rw [hndval]
    dsimp only
    rw [phase1Node_chain_run h' hcoords (edges.length + 1) (by omega) []]
    rw [List.nil_append]
    exact p1fold_allTrue edges R _
  · right
    have hrev : ChainPos edges ps.reverse ns.reverse := chainPos_reverse h'
    have hndrev : nd = ns.reverse.getD 0 default := by
      rw [hndval, getD_reverse ns 0 (by omega), hiM]
      congr 1
      omega
    rw [hndrev]
    dsimp only
    rw [phase1Node_chain_run hrev hcoords (edges.length + 1) (by omega) []]
    rw [walkSegs_reverse_arr h', foldl_appendSeg_reverse _
      (mem_walkSegs_two_le hcoords hbound)]
    rw [List.nil_append]
    exact p1fold_allTrue edges R _

/-- Graph merge on a single open chain returns one LineString: the chain path
walked from one of its two ends. -/
theorem mergeLinesGraph_chain {tol : ℚ} {lines : List (List Pt)} {ps : List ℕ}
    {ns : List Pt} (h : ChainPos (endpointsOf tol lines) ps ns) :
    mergeLinesGraph tol lines =
      some (MergeResult.single
        ((walkSegs (endpointsOf tol lines) ps ns).foldl appendSeg [])) ∨
    mergeLinesGraph tol lines =
      some (MergeResult.single
        ((walkSegs (endpointsOf tol lines) ps ns).foldl appendSeg []).reverse) := by
  have hME := chainPos_length h
  have hM := h.1
  have hcoords : ∀ e ∈ endpointsOf tol lines, 2 ≤ e.coords.length :=
    fun e he => mem_endpointsOf he
  have hedne : endpointsOf tol lines ≠ [] := by
    intro hcon
    rw [hcon] at hME
    rw [List.length_nil] at hME
    omega
  have hlne : lines ≠ [] := by
    intro hcon
    apply hedne
    rw [hcon]
    rfl
  have hphase2 : phase2 (endpointsOf tol lines)
      (List.replicate (endpointsOf tol lines).length true) =
      ([], List.replicate (endpointsOf tol lines).length true) := by
    unfold phase2
    exact phase2Go_noop _ _ [] _ (le_refl _)
  simp only [mergeLinesGraph]
  rw [if_neg hlne, if_neg hedne]
  rcases phase1_chain h hcoords with hP | hP
  · left
    rw [hP, hphase2]
    rfl
  · right
    rw [hP, hphase2]
    rfl

/-- Squared length of one step. -/
def sqDist (p q : Pt) : ℚ := (p.1 - q.1)^2 + (p.2 - q.2)^2

/-- Multiset of squared consecutive-step lengths of a polyline; the geometric
length of the polyline is the sum of the square roots of these, so equal
multisets give equal total lengths. -/
def sqSteps (c : List Pt) : Multiset ℚ :=
  ((c.zip c.tail).map (fun pq => sqDist pq.1 pq.2) : List ℚ)

theorem sqDist_comm (p q : Pt) : sqDist p q = sqDist q p := by
  unfold sqDist
  ring

theorem sqSteps_cons₂ (a b : Pt) (t : List Pt) :
    sqSteps (a :: b :: t) = sqDist a b ::ₘ sqSteps (b :: t) := by
  unfold sqSteps
  rfl

theorem headI_append_left {l : List Pt} (m : List Pt) (hl : l ≠ []) :
    (l ++ m).headI = l.headI := by
  cases l with
  | nil => exact absurd rfl hl
  | cons a t => rfl

theorem sqSteps_append_singleton (l : List Pt) (x : Pt) (hl : l ≠ []) :
    sqSteps (l ++ [x]) = sqDist l.getLastI x ::ₘ sqSteps l := by
  induction l with
  | nil => exact absurd rfl hl
  | cons y l2 ih =>
      cases l2 with
      | nil =>
          rw [List.cons_append, List.nil_append, sqSteps_cons₂]
          rfl
      | cons z l3 =>
          have hgl : (y :: z :: l3 : List Pt).getLastI = (z :: l3).getLastI := by
            rw [List.getLastI_eq_getLast?, List.getLastI_eq_getLast?,
              List.getLast?_cons_cons]
          rw [hgl, List.cons_append, List.cons_append, sqSteps_cons₂,
            ← List.cons_append, ih (List.cons_ne_nil z l3),
            Multiset.cons_swap, ← sqSteps_cons₂]

theorem sqSteps_reverse (c : List Pt) : sqSteps c.reverse = sqSteps c := by
  induction c with
  | nil => rfl
  | cons a t ih =>
      cases t with
      | nil => rfl
      | cons b t2 =>
          rw [List.reverse_cons, sqSteps_append_singleton _ _ (by simp), ih,
            getLastI_reverse, sqSteps_cons₂, sqDist_comm]
          rfl

theorem getD_map_nat (f : ℕ → ℕ) (l : List ℕ) (k : ℕ) (hk : k < l.length) :
    (l.map f).getD k 0 = f (l.getD k 0) := by
  rw [List.getD_eq_getElem _ _ (by simpa using hk),
    List.getD_eq_getElem _ _ (by simpa using hk), List.getElem_map]

/-- Index selection along a permutation: if C is a permutation of L, there is
a duplicate-free full list of positions ps such that L read at ps is C. -/
theorem exists_pos_of_perm {α : Type} [Inhabited α] {L C : List α}
    (h : List.Perm L C) :
    ∃ ps : List ℕ, ps.length = C.length ∧ List.Perm ps (List.range L.length) ∧
      ∀ k, k < C.length → ps.getD k 0 < L.length ∧
        L.getD (ps.getD k 0) default = C.getD k default := by
  induction h with
  | nil => exact ⟨[], rfl, by simp, fun k hk => absurd hk (by simp)⟩
  | cons a hrest ih =>
      obtain ⟨ps, hlen, hperm, hval⟩ := ih
      refine ⟨0 :: ps.map (fun j => j + 1), by simpa using hlen, ?_, ?_⟩
      · rw [List.length_cons, List.range_succ_eq_map]
        exact List.Perm.cons 0 (hperm.map _)
      · intro k hk
        cases k with
        | zero => exact ⟨by simp, by simp⟩
        | succ k2 =>
            have hk2 : k2 < ps.length := by
              rw [hlen]
              simpa using hk
            have hps : (0 :: ps.map (fun j => j + 1)).getD (k2+1) 0 = ps.getD k2 0 + 1 := by
              rw [List.getD_cons_succ, getD_map_nat _ _ _ hk2]
            rw [hps]
            obtain ⟨hb, hv⟩ := hval k2 (by omega)
            exact ⟨by simpa using Nat.succ_lt_succ hb, by
              rw [List.getD_cons_succ, List.getD_cons_succ, hv]⟩
  | swap x y l =>
      refine ⟨1 :: 0 :: (List.range l.length).map (fun j => j + 2), by simp, ?_, ?_⟩
      · have hrng : List.range (l.length + 2) =
            0 :: 1 :: (List.range l.length).map (fun j => j + 2) := by
          rw [show l.length + 2 = 2 + l.length from by omega, List.range_add]
          rw [List.map_congr_left (fun j _ => by omega :
            ∀ j ∈ List.range l.length, 2 + j = j + 2)]
          rfl
        rw [List.length_cons, List.length_cons, hrng]
        exact List.Perm.swap 0 1 _
      · intro k hk
        match k with
        | 0 => exact ⟨by simp, by simp⟩
        | 1 => exact ⟨by simp, by simp⟩
        | k2 + 2 =>
            have hk2 : k2 < l.length := by simpa using hk
            have hgd : (1 :: 0 :: (List.range l.length).map (fun j => j + 2)).getD (k2+2) 0
                = k2 + 2 := by
              rw [List.getD_cons_succ, List.getD_cons_succ,
                getD_map_nat _ _ _ (by simpa using hk2)]
              congr 1
              rw [List.getD_eq_getElem _ _ (by simpa using hk2), List.getElem_range]
            rw [hgd]
            refine ⟨by simpa using Nat.succ_lt_succ (Nat.succ_lt_succ hk2), ?_⟩
            rw [List.getD_cons_succ, List.getD_cons_succ, List.getD_cons_succ,
              List.getD_cons_succ]
  | trans h1 h2 ih1 ih2 =>
      obtain ⟨ps1, hlen1, hperm1, hval1⟩ := ih1
      obtain ⟨ps2, hlen2, hperm2, hval2⟩ := ih2
      refine ⟨ps2.map (fun j => ps1.getD j 0), by simpa using hlen2, ?_, ?_⟩
      · have e1 := hperm2.map (fun j => ps1.getD j 0)
        have e2 : (List.range ps1.length).map (fun j => ps1.getD j 0) = ps1 :=
          map_getD_range ps1
        rw [hlen1] at e2
        rw [e2] at e1
        exact e1.trans hperm1
      · intro k hk
        have hkb : k < ps2.length := by rw [hlen2]; exact hk
        have hmap : (ps2.map (fun j => ps1.getD j 0)).getD k 0 =
            ps1.getD (ps2.getD k 0) 0 := getD_map_nat _ _ _ hkb
        rw [hmap]
        obtain ⟨hb2, hv2⟩ := hval2 k hk
        obtain ⟨hb1, hv1⟩ := hval1 (ps2.getD k 0) hb2
        refine ⟨hb1, ?_⟩
        rw [hv1, hv2]

theorem getD_map_edge (f : ℕ → Edge) (l : List ℕ) (k : ℕ) (hk : k < l.length) :
    (l.map f).getD k default = f (l.getD k 0) := by
  rw [List.getD_eq_getElem _ _ (by simpa using hk),
    List.getD_eq_getElem _ _ (by simpa using hk), List.getElem_map]

/-- C3: for a fixed set of segments forming a single connected open chain,
graph merge under any input ordering yields one polyline with the same
unordered endpoint pair and the same multiset of step lengths (hence the same
total length); indeed the polylines agree up to reversal. -/
theorem C3_order_independence (tol : ℚ) (lines1 lines2 : List (List Pt))
    (ps : List ℕ) (ns : List Pt)
    (hperm : List.Perm lines1 lines2)
    (h : ChainPos (endpointsOf tol lines1) ps ns) :
    ∃ c1 c2 : List Pt,
      mergeLinesGraph tol lines1 = some (MergeResult.single c1) ∧
      mergeLinesGraph tol lines2 = some (MergeResult.single c2) ∧
      (c2 = c1 ∨ c2 = c1.reverse) ∧
      ({c2.headI, c2.getLastI} : Finset Pt) = {c1.headI, c1.getLastI} ∧
      sqSteps c2 = sqSteps c1 := by
  have hedges : List.Perm (endpointsOf tol lines1) (endpointsOf tol lines2) := by
    unfold endpointsOf
    exact hperm.filterMap _
  obtain ⟨hM, hpermps, hlen, hnodup, hconn⟩ := h
  have h1 : ChainPos (endpointsOf tol lines1) ps ns := ⟨hM, hpermps, hlen, hnodup, hconn⟩
  have hchain1 : List.Perm (ps.map (fun p => (endpointsOf tol lines1).getD p default))
      (endpointsOf tol lines1) := by
    have hmm := hpermps.map (fun p => (endpointsOf tol lines1).getD p default)
    rw [map_getD_range] at hmm
    exact hmm
  have hchainperm : List.Perm (endpointsOf tol lines2)
      (ps.map (fun p => (endpointsOf tol lines1).getD p default)) :=
    hedges.symm.trans hchain1.symm
  obtain ⟨ps2, hlen2, hperm2, hval2⟩ := exists_pos_of_perm hchainperm
  rw [List.length_map] at hlen2
  have hval2x : ∀ k, k < ps.length →
      (endpointsOf tol lines2).getD (ps2.getD k 0) default =
        (endpointsOf tol lines1).getD (ps.getD k 0) default := by
    intro k hk
    obtain ⟨hb, hv⟩ := hval2 k (by rw [List.length_map]; exact hk)
    rw [hv, getD_map_edge _ _ _ hk]
  have h2 : ChainPos (endpointsOf tol lines2) ps2 ns := by
    refine ⟨by omega, hperm2, by rw [hlen2]; exact hlen, hnodup, ?_⟩
    intro k hk
    rw [hlen2] at hk
    rw [hval2x k hk]
    exact hconn k hk
  have hsegs : walkSegs (endpointsOf tol lines2) ps2 ns =
      walkSegs (endpointsOf tol lines1) ps ns := by
    unfold walkSegs
    rw [hlen2]
    apply List.map_congr_left
    intro k hk
    rw [List.mem_range] at hk
    rw [hval2x k hk]
  rcases mergeLinesGraph_chain h1 with hm1 | hm1 <;>
    rcases mergeLinesGraph_chain h2 with hm2 | hm2 <;>
    rw [hsegs] at hm2
  · exact ⟨_, _, hm1, hm2, Or.inl rfl, rfl, rfl⟩
  · refine ⟨_, _, hm1, hm2, Or.inr rfl, ?_, sqSteps_reverse _⟩
    rw [headI_reverse, getLastI_reverse, Finset.pair_comm]
  · refine ⟨_, _, hm1, hm2, Or.inr (List.reverse_reverse _).symm, ?_,
      (sqSteps_reverse _).symm⟩
    rw [headI_reverse, getLastI_reverse, Finset.pair_comm]
  · exact ⟨_, _, hm1, hm2, Or.inl rfl, rfl, rfl⟩

def c3LinesA : List (List Pt) := [[(0,0),(1,0)],[(1,0),(2,0)],[(2,0),(3,0)]]

def c3LinesB : List (List Pt) := [[(2,0),(3,0)],[(0,0),(1,0)],[(1,0),(2,0)]]

theorem C3_order_independence_witness :
    (List.Perm c3LinesA c3LinesB ∧
      ChainPos (endpointsOf 0 c3LinesA) [0,1,2] [(0,0),(1,0),(2,0),(3,0)]) ∧
    (∃ c1 c2 : List Pt,
      mergeLinesGraph 0 c3LinesA = some (MergeResult.single c1) ∧
      mergeLinesGraph 0 c3LinesB = some (MergeResult.single c2) ∧
      (c2 = c1 ∨ c2 = c1.reverse) ∧
      ({c2.headI, c2.getLastI} : Finset Pt) = {c1.headI, c1.getLastI} ∧
      sqSteps c2 = sqSteps c1) :=
  ⟨⟨by decide, by decide⟩,
    C3_order_independence 0 c3LinesA c3LinesB [0,1,2] [(0,0),(1,0),(2,0),(3,0)]
      (by decide) (by decide)⟩

/-! Closed-ring arrangements. -/

theorem succ_mod_eq_iff {m k i : ℕ} (hm : 1 ≤ m) (hk : k < m) (hi : i < m) :
    (k + 1) % m = i ↔ k = (i + m - 1) % m := by
  have hprev : ∀ j, 1 ≤ j → j < m → (j + m - 1) % m = j - 1 := by
    intro j h1 h2
    rw [show j + m - 1 = (j - 1) + m from by omega, Nat.add_mod_right,
      Nat.mod_eq_of_lt (by omega)]
  have hprev0 : (0 + m - 1) % m = m - 1 := by
    rw [show 0 + m - 1 = m - 1 from by omega, Nat.mod_eq_of_lt (by omega)]
  rcases Nat.lt_or_ge (k + 1) m with hlt | hge
  · rw [Nat.mod_eq_of_lt hlt]
    constructor
    · rintro rfl
      rw [hprev (k+1) (by omega) hlt]
      omega
    · intro hkk
      rcases Nat.eq_zero_or_pos i with rfl | hip
      · rw [hprev0] at hkk
        omega
      · rw [hprev i hip hi] at hkk
        omega
  · have hk1 : k + 1 = m := by omega
    rw [hk1, Nat.mod_self]
    constructor
    · rintro rfl
      rw [hprev0]
      omega
    · intro hkk
      rcases Nat.eq_zero_or_pos i with rfl | hip
      · rfl
      · rw [hprev i hip hi] at hkk
        omega

theorem getD_drop_one {α : Type} [Inhabited α] (l : List α) (k : ℕ) :
    (l.drop 1).getD k default = l.getD (k+1) default := by
  cases l with
  | nil => rfl
  | cons a t =>
      rw [List.getD_cons_succ]
      rfl

theorem getD_drop_one_nat (l : List ℕ) (k : ℕ) :
    (l.drop 1).getD k 0 = l.getD (k+1) 0 := by
  cases l with
  | nil => rfl
  | cons a t =>
      rw [List.getD_cons_succ]
      rfl

theorem nodup_getD_inj_nat {l : List ℕ} (h : l.Nodup) {i j : ℕ}
    (hi : i < l.length) (hj : j < l.length) :
    l.getD i 0 = l.getD j 0 ↔ i = j := by
  rw [List.getD_eq_getElem _ _ (by simpa using hi),
    List.getD_eq_getElem _ _ (by simpa using hj)]
  exact h.getElem_inj_iff

/-- The walk positions ps enumerate all edges as one closed ring through the
pairwise-distinct nodes ns, normalised so the walk starts with edge index 0
traversed from its a endpoint (phase 2 consumes edge 0 first, from its b
endpoint onwards). -/
def OneRing (edges : List Edge) (ps : List ℕ) (ns : List Pt) : Prop :=
  1 ≤ ps.length ∧
  List.Perm ps (List.range edges.length) ∧
  ns.length = ps.length ∧
  ns.Nodup ∧
  ps.getD 0 0 = 0 ∧
  (edges.getD 0 default).a = ns.getD 0 default ∧
  ∀ k < ps.length, Connects (edges.getD (ps.getD k 0) default)
    (ns.getD k default) (ns.getD ((k+1) % ps.length) default)

instance (edges : List Edge) (ps : List ℕ) (ns : List Pt) :
    Decidable (OneRing edges ps ns) := by
  unfold OneRing
  infer_instance

theorem oneRing_ps_split {edges : List Edge} {ps : List ℕ} {ns : List Pt}
    (h : OneRing edges ps ns) : ps = 0 :: ps.drop 1 := by
  obtain ⟨hM, -, -, -, hp0, -, -⟩ := h
  cases ps with
  | nil => simp at hM
  | cons a t =>
      have ha : a = 0 := by simpa using hp0
      rw [ha]
      rfl

theorem oneRing_ns_split {edges : List Edge} {ps : List ℕ} {ns : List Pt}
    (h : OneRing edges ps ns) : ns = ns.getD 0 default :: ns.drop 1 := by
  obtain ⟨hM, -, hlen, -, -, -, -⟩ := h
  cases ns with
  | nil =>
      rw [List.length_nil] at hlen
      omega
  | cons a t => rfl

theorem ringPos_deg {edges : List Edge} {ps : List ℕ} {ns : List Pt}
    (h : OneRing edges ps ns) (i : ℕ) (hi : i < ps.length) :
    deg edges (ns.getD i default) = 2 := by
  obtain ⟨hM, hperm, hlen, hnodup, hp0, hpin, hconn⟩ := h
  rw [deg_by_positions edges ps hperm]
  have hprev : (i + ps.length - 1) % ps.length < ps.length := Nat.mod_lt _ (by omega)
  have hterm : ∀ k ∈ Finset.range ps.length,
      incCount (ns.getD i default) (edges.getD (ps.getD k 0) default) =
        (if k = i then 1 else 0) +
          (if k = (i + ps.length - 1) % ps.length then 1 else 0) := by
    intro k hk
    rw [Finset.mem_range] at hk
    rw [incCount_of_connects (ns.getD i default) (hconn k hk)]
    have hkm : (k+1) % ps.length < ps.length := Nat.mod_lt _ (by omega)
    congr 1
    · by_cases hki : k = i
      · rw [if_pos ((nodup_getD_inj hnodup (by omega) (by omega)).mpr hki), if_pos hki]
      · rw [if_neg (fun hcon =>
          hki ((nodup_getD_inj hnodup (by omega) (by omega)).mp hcon)), if_neg hki]
    · by_cases hki : (k+1) % ps.length = i
      · rw [if_pos ((nodup_getD_inj hnodup (by omega) (by omega)).mpr hki),
          if_pos ((succ_mod_eq_iff (by omega) hk hi).mp hki)]
      · rw [if_neg (fun hcon =>
          hki ((nodup_getD_inj hnodup (by omega) (by omega)).mp hcon)),
          if_neg (fun hcon => hki ((succ_mod_eq_iff (by omega) hk hi).mpr hcon))]
  rw [Finset.sum_congr rfl hterm, Finset.sum_add_distrib,
    Finset.sum_ite_eq' (Finset.range ps.length) i (fun _ => 1),
    Finset.sum_ite_eq' (Finset.range ps.length)
      ((i + ps.length - 1) % ps.length) (fun _ => 1),
    if_pos (Finset.mem_range.mpr hi), if_pos (Finset.mem_range.mpr hprev)]

theorem ringPos_incident {edges : List Edge} {ps : List ℕ} {ns : List Pt}
    (h : OneRing edges ps ns) (i : ℕ) (hi : i < ps.length)
    (p : ℕ) (hp : p < edges.length)
    (hinc : (edges.getD p default).a = ns.getD i default ∨
      (edges.getD p default).b = ns.getD i default) :
    ∃ j, j < ps.length ∧ ps.getD j 0 = p ∧ (j = i ∨ (j + 1) % ps.length = i) := by
  obtain ⟨hM, hperm, hlen, hnodup, hp0, hpin, hconn⟩ := h
  have hpmem : p ∈ ps := hperm.mem_iff.mpr (by simpa using hp)
  obtain ⟨j, hj, hgd⟩ := mem_getD_exists hpmem
  refine ⟨j, hj, hgd, ?_⟩
  have hcj := hconn j hj
  rw [show (ps.getD j 0 : ℕ) = ps.getD j default from rfl, hgd] at hcj
  have hinj : ∀ a b : ℕ, a < ns.length → b < ns.length →
      ns.getD a default = ns.getD b default → a = b := fun a b ha hb hab =>
    (nodup_getD_inj hnodup ha hb).mp hab
  have hjm : (j+1) % ps.length < ps.length := Nat.mod_lt _ (by omega)
  rcases hcj with ⟨ha, hb⟩ | ⟨ha, hb⟩ <;> rcases hinc with hx | hx
  · left
    exact hinj j i (by omega) (by omega) (by rw [← ha, hx])
  · right
    exact hinj ((j+1) % ps.length) i (by omega) (by omega) (by rw [← hb, hx])
  · right
    exact hinj ((j+1) % ps.length) i (by omega) (by omega) (by rw [← ha, hx])
  · left
    exact hinj j i (by omega) (by omega) (by rw [← hb, hx])

theorem ring_nodeOrder_deg {edges : List Edge} {ps : List ℕ} {ns : List Pt}
    (h : OneRing edges ps ns) :
    ∀ n ∈ nodeOrder edges, deg edges n = 2 := by
  intro n hn
  rw [mem_nodeOrder] at hn
  obtain ⟨e, he, hab⟩ := hn
  obtain ⟨p, hp, hpe⟩ := mem_getD_exists he
  obtain ⟨hM, hperm, hlen, hnodup, hp0, hpin, hconn⟩ := h
  have h' : OneRing edges ps ns := ⟨hM, hperm, hlen, hnodup, hp0, hpin, hconn⟩
  have hpmem : p ∈ ps := hperm.mem_iff.mpr (by simpa using hp)
  obtain ⟨j, hj, hgd⟩ := mem_getD_exists hpmem
  have hcj := hconn j hj
  rw [show (ps.getD j 0 : ℕ) = ps.getD j default from rfl, hgd, hpe] at hcj
  have hjm : (j+1) % ps.length < ps.length := Nat.mod_lt _ (by omega)
  rcases hcj with ⟨ha, hb⟩ | ⟨ha, hb⟩ <;> rcases hab with hx | hx
  · rw [← hx, ha]
    exact ringPos_deg h' j hj
  · rw [← hx, hb]
    exact ringPos_deg h' ((j+1) % ps.length) hjm
  · rw [← hx, ha]
    exact ringPos_deg h' ((j+1) % ps.length) hjm
  · rw [← hx, hb]
    exact ringPos_deg h' j hj

theorem walkSegs_congr_nodes (edges : List Edge) (ps : List ℕ) {ns1 ns2 : List Pt}
    (h : ∀ k < ps.length, ns1.getD k default = ns2.getD k default) :
    walkSegs edges ps ns1 = walkSegs edges ps ns2 := by
  unfold walkSegs
  apply List.map_congr_left
  intro k hk
  rw [List.mem_range] at hk
  rw [h k hk]

theorem walkSegs_ring_split {edges : List Edge} {ps : List ℕ} {ns : List Pt}
    (h : OneRing edges ps ns) :
    walkSegs edges ps ns =
      (edges.getD 0 default).coords :: walkSegs edges (ps.drop 1) (ns.drop 1) := by
  have hps := oneRing_ps_split h
  have hns := oneRing_ns_split h
  obtain ⟨hM, hperm, hlen, hnodup, hp0, hpin, hconn⟩ := h
  conv_lhs => rw [hps, hns]
  rw [walkSegs_cons]
  congr 1
  unfold orientSeg
  rw [if_pos hpin]

theorem oneRing_nsext {edges : List Edge} {ps : List ℕ} {ns : List Pt}
    (h : OneRing edges ps ns) (j : ℕ) (hj : j < ps.length) :
    (ns.drop 1 ++ [ns.getD 0 default]).getD j default =
      ns.getD ((j+1) % ps.length) default := by
  obtain ⟨hM, hperm, hlen, hnodup, hp0, hpin, hconn⟩ := h
  rcases Nat.lt_or_ge j (ps.length - 1) with hlt | hge
  · rw [List.getD_append _ _ _ _ (by rw [List.length_drop, hlen]; omega),
      getD_drop_one, Nat.mod_eq_of_lt (by omega)]
  · have hj1 : j = ps.length - 1 := by omega
    rw [List.getD_append_right _ _ _ _ (by rw [List.length_drop, hlen]; omega),
      List.length_drop, hlen,
      show j - (ps.length - 1) = 0 from by omega,
      show (j + 1) % ps.length = 0 from by
        rw [show j + 1 = ps.length from by omega, Nat.mod_self]]
    rfl

theorem getLastI_concat {α : Type} [Inhabited α] (l : List α) (x : α) :
    (l ++ [x]).getLastI = x := by
  rw [List.getLastI_eq_getLast?, List.getLast?_concat]

theorem headI_chainFold {X : List (List Pt)} (hX : X ≠ [])
    (h2 : ∀ x ∈ X, 2 ≤ x.length) :
    (X.foldl appendSeg []).headI = X.headI.headI := by
  cases X with
  | nil => exact absurd rfl hX
  | cons s rest =>
      have hs2 := h2 s (List.mem_cons_self s rest)
      have hsne : s ≠ [] := by
        intro hcon
        rw [hcon] at hs2
        simp at hs2
      rw [List.foldl_cons, appendSeg_nil,
        foldl_appendSeg_from rest s (fun x hx => h2 x (List.mem_cons_of_mem s hx)),
        headI_appendSeg _ hsne]
      rfl

theorem getLastI_chainFold {X : List (List Pt)} (hX : X ≠ [])
    (h2 : ∀ x ∈ X, 2 ≤ x.length) :
    (X.foldl appendSeg []).getLastI = X.getLastI.getLastI := by
  induction X using List.reverseRecOn with
  | nil => exact absurd rfl hX
  | append_singleton Y s ih =>
      rw [List.foldl_append, List.foldl_cons, List.foldl_nil,
        getLastI_appendSeg _ (h2 s (by simp)), getLastI_concat Y s]

theorem phase1_ring {edges : List Edge} {ps : List ℕ} {ns : List Pt}
    (h : OneRing edges ps ns) (u : List Bool) :
    phase1 edges u = ([], u) := by
  unfold phase1
  exact p1fold_skip edges (nodeOrder edges) ([], u) (ring_nodeOrder_deg h)

/-- Phase 2 on a single closed ring: the sweep consumes edge 0 first, then the
forced walk from its b endpoint eats the whole ring; all later sweep indices
find their edge consumed. -/
theorem phase2_ring {edges : List Edge} {ps : List ℕ} {ns : List Pt}
    (h : OneRing edges ps ns) (hcoords : ∀ e ∈ edges, 2 ≤ e.coords.length) :
    phase2 edges (List.replicate edges.length false) =
      ([(walkSegs edges ps ns).foldl appendSeg []],
        List.replicate edges.length true) := by
  have hps_split := oneRing_ps_split h
  obtain ⟨hM, hperm, hlen, hnodup, hp0, hpin, hconn⟩ := h
  have h' : OneRing edges ps ns := ⟨hM, hperm, hlen, hnodup, hp0, hpin, hconn⟩
  have hME : ps.length = edges.length := by simpa using hperm.length_eq
  have hMe : 1 ≤ edges.length := by omega
  have hbound : ∀ k < ps.length, ps.getD k 0 < edges.length := by
    intro k hk
    have hmem : ps.getD k 0 ∈ ps := by
      rw [List.getD_eq_getElem _ _ (by simpa using hk)]
      exact List.getElem_mem _
    have := hperm.mem_iff.mp hmem
    simpa using this
  have hnodupPs : ps.Nodup := hperm.nodup_iff.mpr (List.nodup_range _)
  obtain ⟨mm, hmm⟩ : ∃ mm, edges.length = mm + 1 := ⟨edges.length - 1, by omega⟩
  have hb : (edges.getD 0 default).b = ns.getD (1 % ps.length) default := by
    have hc := hconn 0 (by omega)
    rw [hp0] at hc
    rcases hc with ⟨h1, h2⟩ | ⟨h1, h2⟩
    · exact h2
    · have h10 : ns.getD (1 % ps.length) default = ns.getD 0 default := by
        rw [← h1, hpin]
      rw [h2]
      exact h10.symm
  have hstart : (ns.drop 1 ++ [ns.getD 0 default]).getD 0 default =
      (edges.getD 0 default).b := by
    rw [oneRing_nsext h' 0 (by omega)]
    exact hb.symm
  have hlps : (ps.drop 1).length = ps.length - 1 := by rw [List.length_drop]
  have hlns : (ns.drop 1 ++ [ns.getD 0 default]).length = ps.length := by
    rw [List.length_append, List.length_drop, hlen, List.length_singleton]
    omega
  have hused0 : (List.replicate edges.length false).getD 0 true = false := by
    rw [List.getD_eq_getElem _ _ (by simpa using hMe), List.getElem_replicate]
  have hused'0 : ((List.replicate edges.length false).set 0 true).getD 0 true = true := by
    rw [getD_set_bool, if_pos ⟨rfl, by rw [List.length_replicate]; omega⟩]
  have huse' : ∀ p, p < edges.length → p ≠ 0 →
      ((List.replicate edges.length false).set 0 true).getD p true = false := by
    intro p hp hpz
    rw [getD_set_bool, if_neg (fun hcon => hpz hcon.1),
      List.getD_eq_getElem _ _ (by simpa using hp), List.getElem_replicate]
  have hpsnz : ∀ k, 1 ≤ k → k < ps.length → ps.getD k 0 ≠ 0 := by
    intro k h1 h2 hcon
    have he : ps.getD k 0 = ps.getD 0 0 := by rw [hcon, hp0]
    have := (nodup_getD_inj_nat hnodupPs (by omega) (by omega)).mp he
    omega
  have hu : ((List.replicate edges.length false).set 0 true).length = edges.length := by
    rw [List.length_set, List.length_replicate]
  have hlen2 : (ns.drop 1 ++ [ns.getD 0 default]).length = (ps.drop 1).length + 1 := by
    rw [hlns, hlps]
    omega
  have hnodup' : (ps.drop 1).Nodup := List.Nodup.sublist (List.drop_sublist 1 ps) hnodupPs
  have hbound' : ∀ k, k < (ps.drop 1).length → (ps.drop 1).getD k 0 < edges.length := by
    intro k hk
    rw [hlps] at hk
    rw [getD_drop_one_nat]
    exact hbound (k+1) (by omega)
  have hunused' : ∀ k, k < (ps.drop 1).length →
      ((List.replicate edges.length false).set 0 true).getD ((ps.drop 1).getD k 0) true
        = false := by
    intro k hk
    rw [hlps] at hk
    rw [getD_drop_one_nat]
    exact huse' _ (hbound (k+1) (by omega)) (hpsnz (k+1) (by omega) (by omega))
  have hconn' : ∀ k, k < (ps.drop 1).length →
      Connects (edges.getD ((ps.drop 1).getD k 0) default)
        ((ns.drop 1 ++ [ns.getD 0 default]).getD k default)
        ((ns.drop 1 ++ [ns.getD 0 default]).getD (k+1) default) := by
    intro k hk
    rw [hlps] at hk
    rw [getD_drop_one_nat, oneRing_nsext h' k (by omega),
      oneRing_nsext h' (k+1) (by omega),
      Nat.mod_eq_of_lt (show k + 1 < ps.length from by omega)]
    exact hconn (k+1) (by omega)
  have hstep' : ∀ k, k < (ps.drop 1).length → ∀ p, p < edges.length →
      ((List.replicate edges.length false).set 0 true).getD p true = false →
      ((edges.getD p default).a = (ns.drop 1 ++ [ns.getD 0 default]).getD k default ∨
        (edges.getD p default).b = (ns.drop 1 ++ [ns.getD 0 default]).getD k default) →
      p ∈ (ps.drop 1).take (k+1) := by
    intro k hk p hp hpu hinc
    rw [hlps] at hk
    rw [oneRing_nsext h' k (by omega),
      Nat.mod_eq_of_lt (show k + 1 < ps.length from by omega)] at hinc
    obtain ⟨j, hj, hgd, hcase⟩ := ringPos_incident h' (k+1) (by omega) p hp hinc
    rcases hcase with hjk | hjk
    · subst hjk
      have hpd : (ps.drop 1).getD k 0 = p := by
        rw [getD_drop_one_nat]
        exact hgd
      rw [← hpd]
      exact getD_mem_take (by omega) (by rw [hlps]; omega)
    · have hjeq : j = k := by
        have h1 := (succ_mod_eq_iff (show 1 ≤ ps.length from hM) hj
          (show k + 1 < ps.length from by omega)).mp hjk
        rw [show k + 1 + ps.length - 1 = k + ps.length from by omega,
          Nat.add_mod_right,
          Nat.mod_eq_of_lt (show k < ps.length from by omega)] at h1
        exact h1
      subst hjeq
      rcases Nat.eq_zero_or_pos j with rfl | hkpos
      · rw [hp0] at hgd
        rw [← hgd, hused'0] at hpu
        exact absurd hpu (by simp)
      · have hpd : (ps.drop 1).getD (j-1) 0 = p := by
          rw [getD_drop_one_nat, show j - 1 + 1 = j from by omega]
          exact hgd
        rw [← hpd]
        exact getD_mem_take (by omega) (by rw [hlps]; omega)
  have hdeg2' : ∀ k, 1 ≤ k → k < (ps.drop 1).length →
      deg edges ((ns.drop 1 ++ [ns.getD 0 default]).getD k default) = 2 := by
    intro k h1 hk
    rw [hlps] at hk
    rw [oneRing_nsext h' k (by omega),
      Nat.mod_eq_of_lt (show k + 1 < ps.length from by omega)]
    exact ringPos_deg h' (k+1) (by omega)
  have hstop' : ∀ p, p < edges.length →
      ((List.replicate edges.length false).set 0 true).getD p true = false →
      ((edges.getD p default).a =
          (ns.drop 1 ++ [ns.getD 0 default]).getD (ps.drop 1).length default ∨
        (edges.getD p default).b =
          (ns.drop 1 ++ [ns.getD 0 default]).getD (ps.drop 1).length default) →
      p ∈ ps.drop 1 := by
    intro p hp hpu hinc
    have hlast : (ns.drop 1 ++ [ns.getD 0 default]).getD (ps.drop 1).length default =
        ns.getD 0 default := by
      rw [hlps, oneRing_nsext h' (ps.length - 1) (by omega),
        show ps.length - 1 + 1 = ps.length from by omega, Nat.mod_self]
    rw [hlast] at hinc
    obtain ⟨j, hj, hgd, hcase⟩ := ringPos_incident h' 0 (by omega) p hp hinc
    rcases hcase with hjk | hjk
    · subst hjk
      rw [hp0] at hgd
      rw [← hgd, hused'0] at hpu
      exact absurd hpu (by simp)
    · have hjeq : j = ps.length - 1 := by
        have h1 := (succ_mod_eq_iff hM hj (show 0 < ps.length from hM)).mp hjk
        rw [show 0 + ps.length - 1 = ps.length - 1 from by omega,
          Nat.mod_eq_of_lt (by omega)] at h1
        exact h1
      rcases Nat.lt_or_ge 1 ps.length with hm2 | hm1
      · have hpd : (ps.drop 1).getD (ps.length - 2) 0 = p := by
          rw [getD_drop_one_nat, show ps.length - 2 + 1 = ps.length - 1 from by omega,
            ← hjeq]
          exact hgd
        rw [← hpd]
        rw [List.getD_eq_getElem _ _ (by rw [hlps]; omega)]
        exact List.getElem_mem _
      · have hj0 : j = 0 := by omega
        rw [hj0, hp0] at hgd
        rw [← hgd, hused'0] at hpu
        exact absurd hpu (by simp)
  have hrun := walkFrom_run edges (ps.drop 1) (ns.drop 1 ++ [ns.getD 0 default])
    ((List.replicate edges.length false).set 0 true) (edges.getD 0 default).coords
    (edges.length + 1) hu hlen2 hnodup' hbound' hunused' hconn' hstep' hdeg2'
    (Or.inr hstop') (by rw [hlps]; omega)
  rw [hstart] at hrun
  have hsetT : setTrues ((List.replicate edges.length false).set 0 true) (ps.drop 1) =
      List.replicate edges.length true := by
    have h1 : setTrues (List.replicate edges.length false) ps =
        List.replicate edges.length true :=
      setTrues_all edges.length ps hperm _ (by rw [List.length_replicate])
    rw [← h1]
    conv_rhs => rw [hps_split]
    rw [setTrues_cons]
  have hnodes : walkSegs edges (ps.drop 1) (ns.drop 1 ++ [ns.getD 0 default]) =
      walkSegs edges (ps.drop 1) (ns.drop 1) := by
    apply walkSegs_congr_nodes
    intro k hk
    rw [hlps] at hk
    rw [List.getD_append _ _ _ _ (by rw [List.length_drop, hlen]; omega)]
  have hfold : (walkSegs edges (ps.drop 1) (ns.drop 1 ++ [ns.getD 0 default])).foldl
      appendSeg (edges.getD 0 default).coords =
      (walkSegs edges ps ns).foldl appendSeg [] := by
    rw [hnodes]
    conv_rhs => rw [walkSegs_ring_split h', List.foldl_cons, appendSeg_nil]
  rw [hfold, hsetT] at hrun
  have htwo : 2 ≤ ((walkSegs edges ps ns).foldl appendSeg []).length :=
    two_le_chainFold hM hcoords hbound
  unfold phase2
  have hrange : List.range edges.length = 0 :: (List.range mm).map Nat.succ := by
    rw [hmm, List.range_succ_eq_map]
  rw [hrange]
  conv_lhs => unfold phase2Go
  rw [hused0, if_neg (by simp)]
  dsimp only
  rw [hrun]
  dsimp only
  rw [if_pos htwo, List.nil_append]
  exact phase2Go_noop edges _ _ edges.length (le_refl _)

/-- Graph merge on a single closed ring returns one LineString: the full ring
walk starting with edge 0 from its a endpoint. -/
theorem mergeLinesGraph_ring {tol : ℚ} {lines : List (List Pt)} {ps : List ℕ}
    {ns : List Pt} (h : OneRing (endpointsOf tol lines) ps ns) :
    mergeLinesGraph tol lines =
      some (MergeResult.single
        ((walkSegs (endpointsOf tol lines) ps ns).foldl appendSeg [])) := by
  have hME : ps.length = (endpointsOf tol lines).length := by simpa using h.2.1.length_eq
  have hM := h.1
  have hcoords : ∀ e ∈ endpointsOf tol lines, 2 ≤ e.coords.length :=
    fun e he => mem_endpointsOf he
  have hedne : endpointsOf tol lines ≠ [] := by
    intro hcon
    rw [hcon] at hME
    rw [List.length_nil] at hME
    omega
  have hlne : lines ≠ [] := by
    intro hcon
    apply hedne
    rw [hcon]
    rfl
  have hp1 := phase1_ring h
    (List.replicate (endpointsOf tol lines).length false)
  have hp2 := phase2_ring h hcoords
  simp only [mergeLinesGraph]
  rw [if_neg hlne, if_neg hedne, hp1, hp2]
  rfl

/-- Exactness of the ring joins: each oriented segment ends at the raw
coordinate where the cyclically next segment starts.  Quantization only
guarantees this up to the node tolerance, so it is a genuine extra
hypothesis. -/
def ExactJoins (segs : List (List Pt)) : Prop :=
  ∀ k < segs.length,
    (segs.getD k default).getLastI = (segs.getD ((k+1) % segs.length) default).headI

instance (segs : List (List Pt)) : Decidable (ExactJoins segs) := by
  unfold ExactJoins
  infer_instance

def c2SquareLines : List (List Pt) :=
  [[(0,0),(1,0)],[(1,0),(1,1)],[(1,1),(0,1)],[(0,1),(0,0)]]

/-- C2 (amended): on a single closed quantized ring whose oriented segments
join exactly (raw coordinates, not only quantized node keys), graph merge
returns one polyline whose first and last coordinates are equal; and the four
unit-square segments merge to one closed LINE with 5 coordinates whose first
coordinate equals its last. -/
theorem C2_cycle_closure (tol : ℚ) (lines : List (List Pt)) (ps : List ℕ)
    (ns : List Pt) (h : OneRing (endpointsOf tol lines) ps ns)
    (hexact : ExactJoins (walkSegs (endpointsOf tol lines) ps ns)) :
    (∃ c : List Pt, mergeLinesGraph tol lines = some (MergeResult.single c) ∧
      c.headI = c.getLastI) ∧
    (mergeLinesGraph 0 c2SquareLines =
        some (MergeResult.single [(0,0),(1,0),(1,1),(0,1),(0,0)]) ∧
      ([((0:ℚ),(0:ℚ)),(1,0),(1,1),(0,1),(0,0)] : List Pt).length = 5 ∧
      ([((0:ℚ),(0:ℚ)),(1,0),(1,1),(0,1),(0,0)] : List Pt).headI =
        ([((0:ℚ),(0:ℚ)),(1,0),(1,1),(0,1),(0,0)] : List Pt).getLastI) := by
  constructor
  · refine ⟨(walkSegs (endpointsOf tol lines) ps ns).foldl appendSeg [],
      mergeLinesGraph_ring h, ?_⟩
    have hM := h.1
    have hperm := h.2.1
    have hME : ps.length = (endpointsOf tol lines).length := by
      simpa using hperm.length_eq
    have hcoords : ∀ e ∈ endpointsOf tol lines, 2 ≤ e.coords.length :=
      fun e he => mem_endpointsOf he
    have hbound : ∀ k < ps.length, ps.getD k 0 < (endpointsOf tol lines).length := by
      intro k hk
      have hmem : ps.getD k 0 ∈ ps := by
        rw [List.getD_eq_getElem _ _ (by simpa using hk)]
        exact List.getElem_mem _
      have := hperm.mem_iff.mp hmem
      simpa using this
    have hlsegs : (walkSegs (endpointsOf tol lines) ps ns).length = ps.length :=
      length_walkSegs _ _ _
    have hX : walkSegs (endpointsOf tol lines) ps ns ≠ [] := by
      intro hcon
      rw [hcon] at hlsegs
      rw [List.length_nil] at hlsegs
      omega
    have h2 : ∀ s ∈ walkSegs (endpointsOf tol lines) ps ns, 2 ≤ s.length :=
      mem_walkSegs_two_le hcoords hbound
    rw [headI_chainFold hX h2, getLastI_chainFold hX h2,
      headI_walkSegs _ ps ns hM, getLastI_walkSegs _ ps ns hM]
    have hex := hexact ((walkSegs (endpointsOf tol lines) ps ns).length - 1)
      (by omega)
    rw [hlsegs, show ps.length - 1 + 1 = ps.length from by omega, Nat.mod_self,
      getD_walkSegs _ ps ns (ps.length - 1) (by omega),
      getD_walkSegs _ ps ns 0 (by omega)] at hex
    exact hex.symm
  · have hsq : OneRing (endpointsOf 0 c2SquareLines) [0,1,2,3]
        [(0,0),(1,0),(1,1),(0,1)] := by decide
    exact ⟨(mergeLinesGraph_ring hsq).trans (by decide), by decide, by decide⟩

theorem C2_cycle_closure_witness :
    (OneRing (endpointsOf 0 c2SquareLines) [0,1,2,3] [(0,0),(1,0),(1,1),(0,1)] ∧
      ExactJoins (walkSegs (endpointsOf 0 c2SquareLines) [0,1,2,3]
        [(0,0),(1,0),(1,1),(0,1)])) ∧
    ((∃ c : List Pt, mergeLinesGraph 0 c2SquareLines = some (MergeResult.single c) ∧
        c.headI = c.getLastI) ∧
      (mergeLinesGraph 0 c2SquareLines =
          some (MergeResult.single [(0,0),(1,0),(1,1),(0,1),(0,0)]) ∧
        ([((0:ℚ),(0:ℚ)),(1,0),(1,1),(0,1),(0,0)] : List Pt).length = 5 ∧
        ([((0:ℚ),(0:ℚ)),(1,0),(1,1),(0,1),(0,0)] : List Pt).headI =
          ([((0:ℚ),(0:ℚ)),(1,0),(1,1),(0,1),(0,0)] : List Pt).getLastI)) :=
  ⟨⟨by decide, by decide⟩,
    C2_cycle_closure 0 c2SquareLines [0,1,2,3] [(0,0),(1,0),(1,1),(0,1)]
      (by decide) (by decide)⟩

def c2CexLines : List (List Pt) := [[(0,0),(4,0)],[(4,0),(1,1)]]

/-- With tolerance 4 the two segments close a ring in quantized node keys
(the key of (1,1) is (0,0)), yet the merged polyline keeps the raw
coordinates and is open: its first and last coordinates differ. -/
theorem C2_counterexample :
    OneRing (endpointsOf 4 c2CexLines) [0,1] [(0,0),(4,0)] ∧
    mergeLinesGraph 4 c2CexLines =
      some (MergeResult.single [(0,0),(4,0),(1,1)]) ∧
    ([((0:ℚ),(0:ℚ)),(4,0),(1,1)] : List Pt).headI ≠
      ([((0:ℚ),(0:ℚ)),(4,0),(1,1)] : List Pt).getLastI := by
  have hq0 : quant 4 0 = 0 := by
    unfold quant pyround
    norm_num
  have hq4 : quant 4 4 = 4 := by
    unfold quant pyround
    norm_num
  have hq1 : quant 4 1 = 0 := by
    unfold quant pyround
    norm_num
  have hE : endpointsOf 4 c2CexLines =
      [⟨(0,0),(4,0),[(0,0),(4,0)]⟩, ⟨(4,0),(0,0),[(4,0),(1,1)]⟩] := by
    unfold c2CexLines endpointsOf
    simp [qpt, hq0, hq4, hq1, List.getLastI]
  have hring : OneRing (endpointsOf 4 c2CexLines) [0,1] [(0,0),(4,0)] := by
    rw [hE]
    decide
  refine ⟨hring, ?_, by decide⟩
  have h2 := mergeLinesGraph_ring hring
  rw [hE] at h2
  rw [h2]
  decide

end CadGis
